import Mathlib

/-!
# Verification of the `nestjs-rest` query engine

A shallow embedding, in Lean 4, of the JSON:API query-parsing,
pagination-link and document-building code of the `ziv/nestjs-rest`
repository, together with theorems settling the specification claims.

Embedded source files:
* `packages/std-json-api/parser.ts` — `parser`, `serializer` and their
  per-parameter helpers;
* `packages/nestjs-rest/json-query.ts` — `CollectionPaginationState`;
* `packages/std-json-api/builder.ts` — the document builder classes;
* `packages/std-json-api/builder-fn.ts` — the functional document
  pipeline (`jsonApi`, `collectionDocument`, `resourceDocument`).

JavaScript numbers are modelled as mathematical integers (`Int`); every
numeric value handled by the embedded code is validated by
`Number.isSafeInteger`, on which exact integer arithmetic agrees with
IEEE doubles.  JavaScript `throw` is modelled by an `Except` codomain.
The `qs` library (an external dependency) is modelled at the level of
its parsed values: `Qs.Val` is the type of values produced by
`qs.parse`, and `qsNormVal`/`qsNormTop` model the composite
`qs.parse(qs.stringify(·))` for structures within the library's default
limits (numbers are rendered in decimal, empty objects and arrays are
dropped, everything else round-trips).
-/

namespace NestJsRest

/-- A value inside a query object produced by `qs.parse`: a string, an
array of values, or a string-keyed object. -/
inductive Qs where
  | str (s : String)
  | arr (l : List Qs)
  | obj (m : List (String × Qs))
deriving Repr

/-- The result of `qs.parse` applied to a whole query string: a
string-keyed object, modelled as an association list in insertion
order. -/
abbrev ParsedQs := List (String × Qs)

/-- First-match association-list lookup, the model of reading a
property of a JavaScript object. -/
def alookup (m : List (String × α)) (k : String) : Option α :=
  match m with
  | [] => none
  | (k', v) :: rest => if k' = k then some v else alookup rest k

/-- JavaScript property assignment `m[k] = v` on an object represented
as an association list: an existing key keeps its position and gets the
new value, a new key is appended. -/
def jsAssign (m : List (String × α)) (k : String) (v : α) : List (String × α) :=
  match m with
  | [] => [(k, v)]
  | (k', v') :: rest => if k' = k then (k, v) :: rest else (k', v') :: jsAssign rest k v

/-- The keys of an association list, in order. -/
def keysOf (m : List (String × α)) : List String := m.map (·.1)

/-- Model of `String.prototype.trim` on the character list of a string:
remove leading and trailing whitespace. -/
def trimChars (cs : List Char) : List Char :=
  ((cs.dropWhile Char.isWhitespace).reverse.dropWhile Char.isWhitespace).reverse

/-- Model of `s.split(",").map(s => s.trim()).filter(Boolean)`, the
tokenisation step shared by the `sort`, `fields` and `include`
parameter parsers.  Works on character lists. -/
def commaTokens (cs : List Char) : List (List Char) :=
  ((cs.splitOn ',').map trimChars).filter (· ≠ [])

/-- Model of `Array.prototype.join(",")` on character lists. -/
def joinComma (ls : List (List Char)) : List Char :=
  List.intercalate [','] ls

/-- The decimal digit characters, used to render numbers. -/
def decDigit (d : Nat) : Char :=
  match d with
  | 0 => '0' | 1 => '1' | 2 => '2' | 3 => '3' | 4 => '4'
  | 5 => '5' | 6 => '6' | 7 => '7' | 8 => '8' | _ => '9'

/-- The numeric value of a decimal digit character. -/
def digitVal (c : Char) : Nat := c.toNat - 48

/-- Decimal rendering of a natural number, most significant digit
first: the model of JavaScript's `String(n)` for non-negative safe
integers. -/
def renderNat (n : Nat) : List Char :=
  if _h : n < 10 then [decDigit n]
  else renderNat (n / 10) ++ [decDigit (n % 10)]
decreasing_by exact Nat.div_lt_self (by omega) (by omega)

/-- Decimal rendering of an integer: the model of JavaScript's
`String(n)` for safe integers. -/
def renderInt (n : Int) : List Char :=
  if n < 0 then '-' :: renderNat (-n).toNat else renderNat n.toNat

/-- Parse a maximal leading run of decimal digits; `none` when there is
no digit, mirroring `parseInt` returning `NaN`. -/
def leadingDigits (cs : List Char) : Option Nat :=
  let ds := cs.takeWhile Char.isDigit
  if ds = [] then none
  else some (ds.foldl (fun a c => 10 * a + digitVal c) 0)

/-- Model of JavaScript `parseInt(s, 10)`: skip leading whitespace,
read an optional sign, then a maximal run of decimal digits; `none`
models `NaN`.  The value is exact; the embedded code only accepts
values passing `Number.isSafeInteger`, on which the IEEE result is
exact as well. -/
def parseIntJS (s : String) : Option Int :=
  match s.data.dropWhile Char.isWhitespace with
  | [] => none
  | c :: rest =>
    if c = '-' then (leadingDigits rest).map (fun n => -(n : Int))
    else if c = '+' then (leadingDigits rest).map (fun n => (n : Int))
    else (leadingDigits (c :: rest)).map (fun n => (n : Int))

/-- `Number.MAX_SAFE_INTEGER`. -/
def maxSafeInteger : Int := 9007199254740991

/-- Model of the guard `!isNaN(value) && Number.isSafeInteger(value)`
from `parser.ts` (`isSafeInteger`), applied to the result of
`parseIntJS` (`none` plays the role of `NaN`). -/
def isSafeIntegerJS (v : Option Int) : Bool :=
  match v with
  | none => false
  | some n => -maxSafeInteger ≤ n ∧ n ≤ maxSafeInteger

/-- `OffsetPagination` from `parser.ts`. -/
structure OffsetPagination where
  offset : Int
  limit : Int
deriving Repr, DecidableEq

/-- `CursorPagination` from `parser.ts`. -/
structure CursorPagination where
  cursor : String
  field : String
  limit : Int
deriving Repr, DecidableEq

/-- The `page` member of a parsed query: one of the two pagination
shapes. -/
inductive Page where
  | offset (p : OffsetPagination)
  | cursor (p : CursorPagination)
deriving Repr, DecidableEq

/-- A sparse fieldset for one resource type: field name to `0 | 1`
marker (the parser only ever writes `1`). -/
abbrev FieldSet := List (String × Nat)

/-- `JsonApiQuery` from `parser.ts`: the parsed representation of a
query string.  `sort` maps field names to `1`/`-1`; `custom` holds the
non-reserved parameters in insertion order (the index signature of the
TypeScript type). -/
structure JsonApiQuery where
  sort : List (String × Int)
  page : Option Page
  filter : Option Qs
  fields : List (String × FieldSet)
  incl : Option (List String)
  custom : List (String × Qs)
deriving Repr

/-- `parseSortParameter` from `parser.ts`: split on `,`, trim, drop
empty tokens; a leading `-` (`field.startsWith("-")`) marks descending
and is stripped (`field.substring(1)`). -/
def parseSortParameter (s : String) : List (String × Int) :=
  (commaTokens s.data).foldl
    (fun acc t =>
      if t.head? = some '-' then jsAssign acc (String.mk t.tail) (-1)
      else jsAssign acc (String.mk t) 1)
    []

/-- `parsePageParameter` from `parser.ts`: cursor pagination when the
page object has a string-valued `cursor` key, otherwise offset
pagination when an `offset` or `limit` key is present; invalid numbers
drop the whole page block (`none` models `undefined`). -/
def parsePageParameter (m : List (String × Qs)) : Option Page :=
  match alookup m "cursor" with
  | some (.str c) =>
    let field := match alookup m "field" with
      | some (.str f) => f
      | _ => "id"
    let limit : Option Int := match alookup m "limit" with
      | some (.str l) => parseIntJS l
      | _ => some 10
    if isSafeIntegerJS limit ∧ limit.getD 0 > 0 then
      some (.cursor ⟨c, field, limit.getD 0⟩)
    else none
  | _ =>
    if (alookup m "offset").isSome ∨ (alookup m "limit").isSome then
      let offset : Option Int := match alookup m "offset" with
        | some (.str o) => parseIntJS o
        | _ => some 0
      let limit : Option Int := match alookup m "limit" with
        | some (.str l) => parseIntJS l
        | _ => some 10
      if isSafeIntegerJS offset ∧ isSafeIntegerJS limit ∧
          offset.getD 0 ≥ 0 ∧ limit.getD 0 > 0 then
        some (.offset ⟨offset.getD 0, limit.getD 0⟩)
      else none
    else none

/-- `parseFilterParameter` from `parser.ts`: the filter sub-tree is
passed through unchanged. -/
def parseFilterParameter (v : Qs) : Qs := v

/-- The entries of a `qs` value viewed as a JavaScript object
(`Object.entries`): objects yield their entries, arrays yield their
elements keyed by decimal index, strings have no entries the embedded
code looks at. -/
def qsEntries (v : Qs) : List (String × Qs) :=
  match v with
  | .obj m => m
  | .arr l => (l.enum.map fun (i, x) => (String.mk (renderNat i), x))
  | .str _ => []

/-- The per-type loop body of `parseFieldsParameter`: split the value
on `,`, trim, drop empties, mark each remaining field name with `1`
(starting from the freshly assigned `fields[resourceType] = {}`). -/
def fieldTokens (s : String) : FieldSet :=
  (commaTokens s.data).foldl (fun acc t => jsAssign acc (String.mk t) 1) []

/-- `parseFieldsParameter` from `parser.ts`: for each resource type
with a string value, split on `,`, trim, drop empties, mark each field
with `1`.  The per-type map is assigned before the field loop, so a
value with no valid tokens yields an empty map. -/
def parseFieldsParameter (entries : List (String × Qs)) : List (String × FieldSet) :=
  entries.foldl
    (fun fields e =>
      match e.2 with
      | .str s => jsAssign fields e.1 (fieldTokens s)
      | _ => fields)
    []

/-- `parseIncludeParameter` from `parser.ts`: split on `,`, trim, drop
empties. -/
def parseIncludeParameter (s : String) : List String :=
  (commaTokens s.data).map String.mk

/-- The reserved query-string vocabulary of `parser.ts`. -/
def reservedKeys : List String := ["sort", "page", "filter", "fields", "include"]

/-- `typeof v === "object"` for a `qs` value (arrays are objects in
JavaScript). -/
def Qs.isObjectLike (v : Qs) : Bool :=
  match v with
  | .str _ => false
  | .arr _ => true
  | .obj _ => true

/-- `parser` from `parser.ts`, acting on the output of `qs.parse`. -/
def parser (p : ParsedQs) : JsonApiQuery where
  sort := match alookup p "sort" with
    | some (.str s) => parseSortParameter s
    | _ => []
  page := match alookup p "page" with
    | some v => if v.isObjectLike then parsePageParameter (qsEntries v) else none
    | none => none
  filter := match alookup p "filter" with
    | some v => if v.isObjectLike then some (parseFilterParameter v) else none
    | none => none
  fields := match alookup p "fields" with
    | some v => if v.isObjectLike then parseFieldsParameter (qsEntries v) else []
    | none => []
  incl := match alookup p "include" with
    | some (.str s) => some (parseIncludeParameter s)
    | _ => none
  custom := p.filter (fun e => ¬ reservedKeys.contains e.1)

/-- A value of the object handed to `qs.stringify` by `serializer`:
strings and numbers written by the serializer, objects built by the
serializer (`page`, `fields`), and `qs` values passed through verbatim
(`filter` and the custom parameters). -/
inductive SVal where
  | str (s : String)
  | num (n : Int)
  | pass (v : Qs)
  | robj (m : List (String × SVal))
deriving Repr

/-- The object handed to `qs.stringify`. -/
abbrev SObj := List (String × SVal)

/-- The token one `sort` entry serializes to: `direction === -1 ?
`-${field}` : field`. -/
def sortToken (e : String × Int) : List Char :=
  if e.2 = -1 then '-' :: e.1.data else e.1.data

/-- `serializeSortParameter` from `parser.ts`: `-` prefix for
descending, joined with `,`. -/
def serializeSortParameter (sort : List (String × Int)) : String :=
  String.mk (joinComma (sort.map sortToken))

/-- `serializePageParameter` from `parser.ts`: cursor pages omit the
`field` key when it is falsy or `"id"`. -/
def serializePageParameter (page : Page) : List (String × SVal) :=
  match page with
  | .cursor pg =>
    [("cursor", .str pg.cursor), ("limit", .num pg.limit)] ++
      (if pg.field ≠ "" ∧ pg.field ≠ "id" then [("field", .str pg.field)] else [])
  | .offset pg => [("offset", .num pg.offset), ("limit", .num pg.limit)]

/-- `serializeFieldsParameter` from `parser.ts`: for each resource
type keep the field names marked `1`, joined with `,`; a type with no
such field is omitted from the result
(`Record<string, string>`). -/
def serializeFieldsParameter (fields : List (String × FieldSet)) :
    List (String × String) :=
  fields.foldl
    (fun res e =>
      if ((e.2.filter (fun kv => kv.2 = 1)).map (·.1)) ≠ [] then
        res ++ [(e.1, String.mk (joinComma
          (((e.2.filter (fun kv => kv.2 = 1)).map (·.1)).map String.data)))]
      else res)
    []

/-- `Object.keys(v).length > 0` for a `qs` value (a string's keys are
its character indices). -/
def Qs.keysNonempty (v : Qs) : Bool :=
  match v with
  | .str s => !s.data.isEmpty
  | .arr l => !l.isEmpty
  | .obj m => !m.isEmpty

/-- The `sort` assignment of `serializer`: present when the sort map
is nonempty. -/
def serSortPart (q : JsonApiQuery) : SObj :=
  if q.sort ≠ [] then [("sort", SVal.str (serializeSortParameter q.sort))] else []

/-- The `page` assignment of `serializer`. -/
def serPagePart (q : JsonApiQuery) : SObj :=
  match q.page with
  | some pg => [("page", SVal.robj (serializePageParameter pg))]
  | none => []

/-- The `filter` assignment of `serializer`: passed through when it
has keys. -/
def serFilterPart (q : JsonApiQuery) : SObj :=
  match q.filter with
  | some f => if f.keysNonempty then [("filter", SVal.pass f)] else []
  | none => []

/-- The `fields` assignment of `serializer`. -/
def serFieldsPart (q : JsonApiQuery) : SObj :=
  if q.fields ≠ [] then
    [("fields", SVal.robj ((serializeFieldsParameter q.fields).map
      fun e => (e.1, SVal.str e.2)))]
  else []

/-- The `include` assignment of `serializer`: the paths joined with
`,`, present when the list is nonempty. -/
def serInclPart (q : JsonApiQuery) : SObj :=
  match q.incl with
  | some l =>
    if l ≠ [] then
      [("include", SVal.str (String.mk (joinComma (l.map String.data))))]
    else []
  | none => []

/-- The pass-through of the custom (non-reserved) parameters by
`serializer`. -/
def serCustomPart (q : JsonApiQuery) : SObj :=
  (q.custom.filter (fun e => ¬ reservedKeys.contains e.1)).map
    (fun e => (e.1, SVal.pass e.2))

/-- `serializer` from `parser.ts`: the object built from a
`JsonApiQuery` and handed to `qs.stringify`, assignments in source
order. -/
def serializer (q : JsonApiQuery) : SObj :=
  serSortPart q ++ serPagePart q ++ serFilterPart q ++ serFieldsPart q ++
    serInclPart q ++ serCustomPart q

mutual

/-- Model of `qs.parse(qs.stringify(·))` on a single `qs` value passed
through `serializer`: strings survive, empty arrays and objects are
dropped (`qs.stringify` emits nothing for them), nonempty containers
round-trip element-wise. -/
def qsNormVal (v : Qs) : Option Qs :=
  match v with
  | .str s => some (.str s)
  | .arr l =>
    match qsNormList l with
    | [] => none
    | l' => some (.arr l')
  | .obj m =>
    match qsNormEntries m with
    | [] => none
    | m' => some (.obj m')

/-- `qsNormVal` on the elements of an array. -/
def qsNormList (l : List Qs) : List Qs :=
  match l with
  | [] => []
  | v :: vs =>
    match qsNormVal v with
    | some v' => v' :: qsNormList vs
    | none => qsNormList vs

/-- `qsNormVal` on the entries of an object. -/
def qsNormEntries (m : List (String × Qs)) : List (String × Qs) :=
  match m with
  | [] => []
  | (k, v) :: rest =>
    match qsNormVal v with
    | some v' => (k, v') :: qsNormEntries rest
    | none => qsNormEntries rest

end

mutual

/-- Model of `qs.parse(qs.stringify(·))` on a serializer value: numbers
are rendered in decimal (becoming strings after re-parsing), empty
containers are dropped. -/
def qsNormSVal (v : SVal) : Option Qs :=
  match v with
  | .str s => some (.str s)
  | .num n => some (.str (String.mk (renderInt n)))
  | .pass q => qsNormVal q
  | .robj m =>
    match qsNormSEntries m with
    | [] => none
    | m' => some (.obj m')

/-- `qsNormSVal` on the entries of a serializer object. -/
def qsNormSEntries (m : List (String × SVal)) : List (String × Qs) :=
  match m with
  | [] => []
  | (k, v) :: rest =>
    match qsNormSVal v with
    | some v' => (k, v') :: qsNormSEntries rest
    | none => qsNormSEntries rest

end

/-- `qs.parse(qs.stringify(·))` on the whole serializer output: the
query object a client would obtain by parsing the serialized string. -/
def qsNormTop (obj : SObj) : ParsedQs := qsNormSEntries obj

/-- The composite `parser(qs.parse(qs.stringify(serializer(q))))`:
what `parse(serialize(q))` yields in the round-trip law. -/
def reparse (q : JsonApiQuery) : JsonApiQuery := parser (qsNormTop (serializer q))

/-! ## `CollectionPaginationState` (`packages/nestjs-rest/json-query.ts`)

Links are modelled as the pair of the URL prefix and the object handed
to `qs.stringify` by `#build` — `` `${url}?${qs.stringify({...parsed, page})}` ``.
The object spread `{...parsed, page}` keeps every entry of `parsed`,
overriding `page` in place (or appending it). -/

/-- The state behind the pagination links of one collection response. -/
structure CollectionPaginationState where
  url : String
  parsed : ParsedQs
  limit : Int
  offset : Int
  total : Int
deriving Repr

/-- A pagination link: URL prefix plus the query object serialized
after it. -/
structure PageLink where
  url : String
  params : SObj
deriving Repr

namespace CollectionPaginationState

/-- `#build({limit, offset})`: spread the original parsed query and
override its `page` member with the given page object. -/
def build (s : CollectionPaginationState) (limit offset : Int) : PageLink where
  url := s.url
  params :=
    jsAssign (s.parsed.map fun e => (e.1, SVal.pass e.2)) "page"
      (SVal.robj [("limit", .num limit), ("offset", .num offset)])

/-- `first()`. -/
def first (s : CollectionPaginationState) : PageLink := s.build s.limit 0

/-- `last()`: the offset `lastOffset` is
`Math.floor((total - 1) / limit) * limit`, the link is present when
`lastOffset >= 0`. -/
def last (s : CollectionPaginationState) : Option PageLink :=
  if ((s.total - 1).fdiv s.limit) * s.limit ≥ 0 then
    some (s.build s.limit (((s.total - 1).fdiv s.limit) * s.limit))
  else none

/-- `next()`: the offset is `offset + limit`, the link is present when
`total >= offset + limit`. -/
def next (s : CollectionPaginationState) : Option PageLink :=
  if s.total ≥ s.offset + s.limit then
    some (s.build s.limit (s.offset + s.limit))
  else none

/-- `previous()`: the offset is `offset - limit`, the link is present
when it is non-negative. -/
def previous (s : CollectionPaginationState) : Option PageLink :=
  if s.offset - s.limit ≥ 0 then
    some (s.build s.limit (s.offset - s.limit))
  else none

/-- `self()`. -/
def self (s : CollectionPaginationState) : PageLink := s.build s.limit s.offset

/-- All links the state can generate for one response, in the order
`self`, `first`, `last`, `prev`, `next` (absent ones omitted). -/
def allLinks (s : CollectionPaginationState) : List PageLink :=
  [s.self, s.first] ++ (s.last).toList ++ (s.previous).toList ++ (s.next).toList

/-- The `page` object a link carries, when it has the shape written by
`#build`. -/
def linkPage (l : PageLink) : Option (List (String × SVal)) :=
  match alookup l.params "page" with
  | some (.robj m) => some m
  | _ => none

/-- The offset recorded in a link's `page` object. -/
def linkOffset (l : PageLink) : Option Int :=
  match (linkPage l).bind (fun m => alookup m "offset") with
  | some (.num n) => some n
  | _ => none

end CollectionPaginationState

/-! ## Document builders (`packages/std-json-api/builder.ts`,
`packages/std-json-api/builder-fn.ts`)

The builder classes mutate a private `doc` object initialised to
`{jsonapi: {version: "1.0"}}`; each method body is a single property
assignment followed by `return this`.  JavaScript `throw` is modelled
by an `Except String` codomain, so a method that cannot throw always
returns `.ok`.  At runtime (types erased) the `data` setters of the
single-resource and the collection builder have the same body
`this.doc.data = data`, accepting any primary-data value. -/

/-- A JSON:API resource object (the members the builders handle). -/
structure ResourceObject where
  rtype : String
  rid : Option String
  attributes : List (String × String)
deriving Repr, DecidableEq

/-- Primary data of a document: a single resource (or `null`) or a
collection. -/
inductive PrimaryData where
  | single (r : Option ResourceObject)
  | collection (rs : List ResourceObject)
deriving Repr, DecidableEq

/-- The document under construction: `jsonapi` is set by the
constructor, the other members by the setters. -/
structure DocState where
  jsonapi : Option String
  data : Option PrimaryData
  meta : Option (List (String × String))
  links : Option (List (String × String))
  included : Option (List ResourceObject)
deriving Repr, DecidableEq

/-- `JsonApiBaseBuilder`'s initial document: `{jsonapi: {version: "1.0"}}`. -/
def initDoc : DocState where
  jsonapi := some "1.0"
  data := none
  meta := none
  links := none
  included := none

/-- A runtime call on a document builder: `metadata`, `links`, the
`data` setters of `JsonApiDocumentBuilder` /
`JsonApiCollectionDocumentBuilder`, and `included`. -/
inductive BuilderOp where
  | metadata (m : List (String × String))
  | links (l : List (String × String))
  | data (d : PrimaryData)
  | included (rs : List ResourceObject)
deriving Repr

/-- One builder method call.  Each embedded method body is the
translation of the TypeScript source, which contains no `throw`
statement on any path, hence always returns `.ok`. -/
def applyBuilderOp (op : BuilderOp) (b : DocState) : Except String DocState :=
  match op with
  | .metadata m => .ok { b with meta := some m }
  | .links l => .ok { b with links := some l }
  | .data d => .ok { b with data := some d }
  | .included rs => .ok { b with included := some rs }

/-- A chain of builder method calls starting from a given document. -/
def runBuilder (ops : List BuilderOp) (b : DocState) : Except String DocState :=
  match ops with
  | [] => .ok b
  | op :: rest =>
    match applyBuilderOp op b with
    | .ok b' => runBuilder rest b'
    | .error e => .error e

/-- The primary data the document ends up with: the value of the last
`data` call, if any, else the starting value. -/
def lastDataOf (ops : List BuilderOp) (start : Option PrimaryData) : Option PrimaryData :=
  match ops with
  | [] => start
  | .data d :: rest => lastDataOf rest (some d)
  | _ :: rest => lastDataOf rest start

/-- An update function handed to the functional pipeline `jsonApi` in
`builder-fn.ts`: produced by `meta`, `links`, `dataResource` or
`dataCollection`. -/
inductive DocFn where
  | metaF (m : List (String × String))
  | linksF (l : List (String × String))
  | dataResourceF (r : ResourceObject)
  | dataCollectionF (rs : List ResourceObject)
deriving Repr

/-- Application of one functional update: each is a single property
assignment returning the document. -/
def applyDocFn (b : DocState) (fn : DocFn) : DocState :=
  match fn with
  | .metaF m => { b with meta := some m }
  | .linksF l => { b with links := some l }
  | .dataResourceF r => { b with data := some (.single (some r)) }
  | .dataCollectionF rs => { b with data := some (.collection rs) }

/-- `jsonApi(...fns)` from `builder-fn.ts`: start from
`{jsonapi: {version: "1.0"}}` and apply the update functions in
order. -/
def jsonApi (fns : List DocFn) : DocState :=
  fns.foldl applyDocFn
    { jsonapi := some "1.0", data := none, meta := none, links := none,
      included := none }

/-- `collectionDocument(...fns)` from `builder-fn.ts`: delegates to
`jsonApi`. -/
def collectionDocument (fns : List DocFn) : DocState := jsonApi fns

/-- `resourceDocument(...fns)` from `builder-fn.ts`: delegates to
`jsonApi`. -/
def resourceDocument (fns : List DocFn) : DocState := jsonApi fns

/-! ## Predicates used by the theorems -/

/-- `typeof v === "string"` for a `qs` value. -/
def Qs.isStr (v : Qs) : Bool :=
  match v with
  | .str _ => true
  | _ => false

/-- Everything of a parsed query except its `page` member, for frame
statements. -/
def nonPageParts (q : JsonApiQuery) :
    List (String × Int) × Option Qs × List (String × FieldSet) ×
      Option (List String) × List (String × Qs) :=
  (q.sort, q.filter, q.fields, q.incl, q.custom)

/-- A query object with every binding of one key removed: the input
"as if the block were absent". -/
def removeKey (p : ParsedQs) (k : String) : ParsedQs :=
  p.filter (fun e => e.1 ≠ k)

mutual

/-- Well-formedness of a value produced by `qs.parse`: the library
never yields an empty array or an empty object, and the keys of an
object (a JavaScript object) are distinct. -/
def Qs.wf (v : Qs) : Bool :=
  match v with
  | .str _ => true
  | .arr l => !l.isEmpty && Qs.wfList l
  | .obj m => !m.isEmpty && decide (keysOf m).Nodup && Qs.wfEntries m

/-- `Qs.wf` on the elements of an array. -/
def Qs.wfList (l : List Qs) : Bool :=
  match l with
  | [] => true
  | v :: vs => Qs.wf v && Qs.wfList vs

/-- `Qs.wf` on the entry values of an object. -/
def Qs.wfEntries (m : List (String × Qs)) : Bool :=
  match m with
  | [] => true
  | e :: rest => Qs.wf e.2 && Qs.wfEntries rest

end

/-- Well-formedness of a whole `qs.parse` result: distinct keys,
well-formed values. -/
def wfParsed (p : ParsedQs) : Bool :=
  decide (keysOf p).Nodup && Qs.wfEntries p

/-- A token as produced by the split/trim/drop-empties step: nonempty,
already trimmed, and comma-free. -/
def goodTok (t : List Char) : Bool :=
  decide (t ≠ []) && decide (trimChars t = t) && decide (',' ∉ t)

/-- Invariant of one `sort` entry as produced by `parseSortParameter`:
the serialized token (with the `-` prefix for descending entries) is a
good token, and an ascending field name never starts with `-`. -/
def goodSortEntry (e : String × Int) : Bool :=
  (decide (e.2 = -1) && goodTok ('-' :: e.1.data)) ||
  (decide (e.2 = 1) && goodTok e.1.data && decide (e.1.data.head? ≠ some '-'))

/-- Invariant of one sparse-fieldset entry as produced by
`fieldTokens`: marker `1` and a good token as the field name. -/
def goodFieldEntry (fe : String × Nat) : Bool :=
  decide (fe.2 = 1) && goodTok fe.1.data

/-- Invariant of the `fields` member as produced by
`parseFieldsParameter`. -/
def goodFields (fs : List (String × FieldSet)) : Bool :=
  decide ((keysOf fs).Nodup) &&
  fs.all (fun e => decide ((keysOf e.2).Nodup) && e.2.all goodFieldEntry)

/-- Invariant of the `page` member as produced by
`parsePageParameter`: validated safe bounds. -/
def goodPage (pg : Option Page) : Bool :=
  match pg with
  | none => true
  | some (.offset o) =>
    decide (0 ≤ o.offset ∧ o.offset ≤ maxSafeInteger ∧
      0 < o.limit ∧ o.limit ≤ maxSafeInteger)
  | some (.cursor c) =>
    decide (0 < c.limit ∧ c.limit ≤ maxSafeInteger)

/-- The invariants `parser` guarantees of every query it returns (for
well-formed `qs.parse` input). -/
def goodQuery (q : JsonApiQuery) : Bool :=
  q.sort.all goodSortEntry && decide ((keysOf q.sort).Nodup) &&
  goodPage q.page &&
  (match q.filter with
    | none => true
    | some f => f.isObjectLike && f.wf) &&
  goodFields q.fields &&
  (match q.incl with
    | none => true
    | some l => l.all (fun x => goodTok x.data)) &&
  q.custom.all (fun e => !(reservedKeys.contains e.1) && e.2.wf) &&
  decide ((keysOf q.custom).Nodup)

/-- The side condition of the amended round-trip law: no resource type
with an empty fieldset, no empty (but present) include list, no cursor
page with an empty sort field.  These are exactly the degenerate
parses (`fields[t]=`, `include=`, `page[field]=`) on which the
serializer drops information. -/
def rtCond (q : JsonApiQuery) : Bool :=
  q.fields.all (fun e => decide ((e.2.filter (fun kv => kv.2 = 1)) ≠ [])) &&
  (match q.incl with
    | none => true
    | some l => decide (l ≠ [])) &&
  (match q.page with
    | some (.cursor pg) => decide (pg.field ≠ "")
    | _ => true)

/-! ## Association-list lemmas -/

theorem alookup_jsAssign_self (m : List (String × α)) (k : String) (v : α) :
    alookup (jsAssign m k v) k = some v := by
  induction m with
  | nil => simp [jsAssign, alookup]
  | cons e rest ih =>
    obtain ⟨k', v'⟩ := e
    by_cases h : k' = k <;> simp [jsAssign, h, alookup, ih]

theorem alookup_jsAssign_ne (m : List (String × α)) (k k' : String) (v : α)
    (h : k' ≠ k) : alookup (jsAssign m k v) k' = alookup m k' := by
  have hk : k ≠ k' := fun h' => h h'.symm
  induction m with
  | nil => simp [jsAssign, alookup, hk]
  | cons e rest ih =>
    obtain ⟨k0, v0⟩ := e
    by_cases h0 : k0 = k
    · subst h0
      simp [jsAssign, alookup, hk]
    · by_cases h1 : k0 = k' <;> simp [jsAssign, h0, alookup, h1, ih, h]

theorem alookup_map_val (m : List (String × α)) (f : α → β) (k : String) :
    alookup (m.map fun e => (e.1, f e.2)) k = (alookup m k).map f := by
  induction m with
  | nil => simp [alookup]
  | cons e rest ih =>
    obtain ⟨k0, v0⟩ := e
    by_cases h : k0 = k <;> simp [alookup, h, ih]

theorem alookup_removeKey_ne (p : ParsedQs) (k k' : String) (h : k' ≠ k) :
    alookup (removeKey p k) k' = alookup p k' := by
  have hk : k ≠ k' := fun h' => h h'.symm
  induction p with
  | nil => simp [removeKey, alookup]
  | cons e rest ih =>
    obtain ⟨k0, v0⟩ := e
    by_cases h0 : k0 = k
    · subst h0
      simpa [removeKey, alookup, hk] using ih
    · by_cases h1 : k0 = k' <;>
        simp_all [removeKey, alookup, h0, h1, h]

theorem alookup_removeKey_self (p : ParsedQs) (k : String) :
    alookup (removeKey p k) k = none := by
  induction p with
  | nil => simp [removeKey, alookup]
  | cons e rest ih =>
    obtain ⟨k0, v0⟩ := e
    by_cases h0 : k0 = k <;> simpa [removeKey, alookup, h0] using ih

theorem filter_nonreserved_removeKey (p : ParsedQs) :
    (removeKey p "page").filter (fun e => ¬ reservedKeys.contains e.1)
      = p.filter (fun e => ¬ reservedKeys.contains e.1) := by
  induction p with
  | nil => rfl
  | cons e rest ih =>
    obtain ⟨k0, v0⟩ := e
    by_cases h0 : k0 = "page"
    · subst h0
      simp [removeKey, List.filter, reservedKeys] at ih ⊢
      simpa [List.contains] using ih
    · by_cases h1 : reservedKeys.contains k0 <;>
        simp_all [removeKey, List.filter]

/-! ## Integer division lemmas -/

theorem neg_one_ediv (b : Int) (hb : 0 < b) : (-1 : Int) / b = -1 := by
  have h1 : (b - 1 + (-1) * b) / b = (b - 1) / b + (-1) :=
    Int.add_mul_ediv_right _ _ (by omega)
  have h2 : (b - 1) / b = 0 := Int.ediv_eq_zero_of_lt (by omega) (by omega)
  have h3 : b - 1 + (-1) * b = -1 := by ring
  rw [h3, h2] at h1
  simpa using h1

theorem neg_one_fdiv (b : Int) (hb : 0 < b) : Int.fdiv (-1) b = -1 := by
  rw [Int.fdiv_eq_ediv _ (le_of_lt hb)]
  exact neg_one_ediv b hb

/-! ## Pagination-state lemmas -/

namespace CollectionPaginationState

theorem linkOffset_build (s : CollectionPaginationState) (l o : Int) :
    linkOffset (s.build l o) = some o := by
  simp [linkOffset, linkPage, build, alookup_jsAssign_self, alookup]

theorem alookup_build_ne (s : CollectionPaginationState) (l o : Int)
    (k : String) (hk : k ≠ "page") :
    alookup (s.build l o).params k = (alookup s.parsed k).map SVal.pass := by
  simp [build, alookup_jsAssign_ne _ _ _ _ hk, alookup_map_val]

end CollectionPaginationState

/-! ## Builder lemmas -/

theorem runBuilder_ok (ops : List BuilderOp) (b : DocState) :
    ∃ d, runBuilder ops b = .ok d ∧ d.jsonapi = b.jsonapi ∧
      d.data = lastDataOf ops b.data := by
  induction ops generalizing b with
  | nil => exact ⟨b, rfl, rfl, rfl⟩
  | cons op rest ih =>
    cases op with
    | metadata m =>
      obtain ⟨d, hd, hj, hdata⟩ := ih { b with meta := some m }
      exact ⟨d, hd, hj, hdata⟩
    | links l =>
      obtain ⟨d, hd, hj, hdata⟩ := ih { b with links := some l }
      exact ⟨d, hd, hj, hdata⟩
    | data v =>
      obtain ⟨d, hd, hj, hdata⟩ := ih { b with data := some v }
      exact ⟨d, hd, hj, hdata⟩
    | included rs =>
      obtain ⟨d, hd, hj, hdata⟩ := ih { b with included := some rs }
      exact ⟨d, hd, hj, hdata⟩

theorem jsonApi_foldl_jsonapi (fns : List DocFn) (b : DocState) :
    (fns.foldl applyDocFn b).jsonapi = b.jsonapi := by
  induction fns generalizing b with
  | nil => rfl
  | cons fn rest ih =>
    cases fn <;> simpa [applyDocFn] using ih _

theorem alookup_eq_none_of_not_mem (m : List (String × α)) (k : String)
    (h : k ∉ keysOf m) : alookup m k = none := by
  induction m with
  | nil => rfl
  | cons e rest ih =>
    obtain ⟨k0, v0⟩ := e
    simp only [keysOf, List.map_cons, List.mem_cons, not_or] at h
    obtain ⟨h1, h2⟩ := h
    have h1' : ¬ k0 = k := fun hh => h1 hh.symm
    simp [alookup, h1', ih (by simpa [keysOf] using h2)]

theorem string_mk_injective : Function.Injective String.mk := by
  intro a b h
  exact congrArg String.data h

/-- Lookup characterization of the `fields` fold (for distinct
resource-type keys, as JavaScript objects guarantee). -/
theorem fields_foldl_lookup (entries : List (String × Qs))
    (acc : List (String × FieldSet)) (t : String)
    (hnd : (keysOf entries).Nodup) :
    alookup (entries.foldl (fun fields e =>
        match e.2 with
        | .str s => jsAssign fields e.1 (fieldTokens s)
        | _ => fields) acc) t
      = match alookup entries t with
        | some (.str s) => some (fieldTokens s)
        | _ => alookup acc t := by
  induction entries generalizing acc with
  | nil => simp [alookup]
  | cons e rest ih =>
    obtain ⟨k0, v0⟩ := e
    simp only [keysOf, List.map_cons, List.nodup_cons] at hnd
    obtain ⟨hk0, hndr⟩ := hnd
    by_cases hk : k0 = t
    · subst hk
      have hnone : alookup rest k0 = none :=
        alookup_eq_none_of_not_mem rest k0 (by simpa [keysOf] using hk0)
      cases v0 with
      | str s =>
        rw [List.foldl_cons]
        simp only []
        rw [ih _ (by simpa [keysOf] using hndr), hnone]
        simp [alookup, alookup_jsAssign_self]
      | arr l =>
        rw [List.foldl_cons]
        simp only []
        rw [ih _ (by simpa [keysOf] using hndr), hnone]
        simp [alookup]
      | obj m =>
        rw [List.foldl_cons]
        simp only []
        rw [ih _ (by simpa [keysOf] using hndr), hnone]
        simp [alookup]
    · have hlook : alookup ((k0, v0) :: rest) t = alookup rest t := by
        simp [alookup, hk]
      cases v0 with
      | str s =>
        rw [List.foldl_cons]
        simp only []
        rw [ih _ (by simpa [keysOf] using hndr), hlook]
        rw [alookup_jsAssign_ne _ _ _ _ (fun h => hk h.symm)]
      | arr l =>
        rw [List.foldl_cons]
        simp only []
        rw [ih _ (by simpa [keysOf] using hndr), hlook]
      | obj m =>
        rw [List.foldl_cons]
        simp only []
        rw [ih _ (by simpa [keysOf] using hndr), hlook]

/-- Dropping the `page` parameter from the raw query changes nothing
but the `page` member of the parse result. -/
theorem parser_removeKey_page_frame (p : ParsedQs) :
    nonPageParts (parser p) = nonPageParts (parser (removeKey p "page")) := by
  simp only [nonPageParts, parser]
  rw [alookup_removeKey_ne p "page" "sort" (by decide),
    alookup_removeKey_ne p "page" "filter" (by decide),
    alookup_removeKey_ne p "page" "fields" (by decide),
    alookup_removeKey_ne p "page" "include" (by decide),
    filter_nonreserved_removeKey]

/-! ## Claim C2 — `next` link -/

/-- C2 (counterexample).  The claim states the `next` link is present
if and only if `offset + limit < total`.  At `limit = 10`, `offset =
0`, `total = 10` the code (`total >= offset + limit`) produces a
`next` link although `offset + limit < total` fails, so the claim is
false as stated. -/
theorem c2_next_boundary_cex :
    (CollectionPaginationState.next ⟨"u", [], 10, 0, 10⟩).isSome = true ∧
    ¬ ((0 : Int) + 10 < 10) := by
  exact ⟨by decide, by decide⟩

/-- C2 (amended).  For every positive `limit`, non-negative `offset`
and non-negative `total`, the pagination calculator produces a `next`
link if and only if `offset + limit ≤ total` (note: non-strict, the
boundary `offset + limit = total` still yields a link), and when
present the `next` link's offset equals `offset + limit`. -/
theorem c2_next_amended (url : String) (parsed : ParsedQs)
    (limit offset total : Int)
    (_hl : 0 < limit) (_ho : 0 ≤ offset) (_ht : 0 ≤ total) :
    ((CollectionPaginationState.mk url parsed limit offset total).next.isSome
       ↔ offset + limit ≤ total) ∧
    ((CollectionPaginationState.mk url parsed limit offset total).next.bind
        CollectionPaginationState.linkOffset
      = if offset + limit ≤ total then some (offset + limit) else none) := by
  constructor
  · simp only [CollectionPaginationState.next]
    by_cases hc : total ≥ offset + limit
    · rw [if_pos hc]
      simpa using by omega
    · rw [if_neg hc]
      simpa using by omega
  · simp only [CollectionPaginationState.next]
    by_cases hc : total ≥ offset + limit
    · rw [if_pos hc, if_pos (by omega : offset + limit ≤ total)]
      simp [CollectionPaginationState.linkOffset_build]
    · rw [if_neg hc, if_neg (by omega : ¬ offset + limit ≤ total)]
      rfl

/-- C2 (witness for the amended theorem): at `limit = 10`, `offset =
0`, `total = 25` the `next` link is present with offset `10`. -/
theorem c2_next_amended_witness :
    ((CollectionPaginationState.mk "u" [] 10 0 25).next.isSome
       ↔ (0 : Int) + 10 ≤ 25) ∧
    ((CollectionPaginationState.mk "u" [] 10 0 25).next.bind
        CollectionPaginationState.linkOffset
      = if (0 : Int) + 10 ≤ 25 then some (0 + 10) else none) :=
  c2_next_amended "u" [] 10 0 25 (by decide) (by decide) (by decide)

/-! ## Claim C5 — `last` link -/

/-- C5.  For every positive `limit` and non-negative `total`, the
pagination calculator produces a `last` link if and only if
`total > 0`; when present its offset is
`floor((total - 1) / limit) * limit`, and whenever `total ≤ limit` the
last offset equals the first offset `0`. -/
theorem c5_last_arithmetic (url : String) (parsed : ParsedQs)
    (limit offset total : Int)
    (hl : 0 < limit) (ht : 0 ≤ total) :
    ((CollectionPaginationState.mk url parsed limit offset total).last.isSome
       ↔ 0 < total) ∧
    ((CollectionPaginationState.mk url parsed limit offset total).last.bind
        CollectionPaginationState.linkOffset
      = if 0 < total then some (((total - 1).fdiv limit) * limit) else none) ∧
    (0 < total → total ≤ limit →
      (CollectionPaginationState.mk url parsed limit offset total).last.bind
        CollectionPaginationState.linkOffset = some 0) := by
  have hoff : 0 < total → 0 ≤ ((total - 1).fdiv limit) * limit := fun h =>
    Int.mul_nonneg (Int.fdiv_nonneg (by omega) (by omega)) (by omega)
  have hneg : ¬ 0 < total → ((total - 1).fdiv limit) * limit < 0 := by
    intro h
    have h0 : total = 0 := by omega
    subst h0
    rw [show ((0 : Int) - 1) = -1 by norm_num, neg_one_fdiv limit hl]
    omega
  refine ⟨?_, ?_, ?_⟩
  · simp only [CollectionPaginationState.last]
    by_cases h : 0 < total
    · rw [if_pos (hoff h)]
      simpa using h
    · rw [if_neg (by have := hneg h; omega)]
      simpa using h
  · simp only [CollectionPaginationState.last]
    by_cases h : 0 < total
    · rw [if_pos (hoff h), if_pos h]
      simp [CollectionPaginationState.linkOffset_build]
    · rw [if_neg (by have := hneg h; omega), if_neg h]
      simp
  · intro h1 h2
    simp only [CollectionPaginationState.last]
    rw [if_pos (hoff h1)]
    have : (total - 1).fdiv limit = 0 := by
      rw [Int.fdiv_eq_ediv _ (by omega)]
      exact Int.ediv_eq_zero_of_lt (by omega) (by omega)
    simp [CollectionPaginationState.linkOffset_build, this]

/-- C5 (witness): the claim's own instances.  `total = 0` yields no
`last` link; `total = 1, limit = 10` yields last offset `0`;
`total = 25, limit = 10` yields last offset `20`. -/
theorem c5_last_arithmetic_witness :
    ((CollectionPaginationState.mk "u" [] 10 0 0).last.isSome ↔ (0 : Int) < 0) ∧
    ((CollectionPaginationState.mk "u" [] 10 0 1).last.bind
        CollectionPaginationState.linkOffset = some 0) ∧
    ((CollectionPaginationState.mk "u" [] 10 20 25).last.bind
        CollectionPaginationState.linkOffset
      = if (0 : Int) < 25 then some ((((25 : Int) - 1).fdiv 10) * 10) else none) := by
  refine ⟨(c5_last_arithmetic "u" [] 10 0 0 (by decide) (by decide)).1, ?_, ?_⟩
  · exact (c5_last_arithmetic "u" [] 10 0 1 (by decide) (by decide)).2.2
      (by decide) (by decide)
  · exact (c5_last_arithmetic "u" [] 10 20 25 (by decide) (by decide)).2.1

/-! ## Claim C9 — link frame preservation -/

/-- Every generated link is a `#build` result. -/
theorem last_mem_build (s : CollectionPaginationState) (x : PageLink)
    (hx : x ∈ (CollectionPaginationState.last s).toList) :
    ∃ l o, x = s.build l o := by
  unfold CollectionPaginationState.last at hx
  by_cases hc : ((s.total - 1).fdiv s.limit) * s.limit ≥ 0
  · rw [if_pos hc] at hx
    simp at hx
    exact ⟨_, _, hx⟩
  · rw [if_neg hc] at hx
    simp at hx

theorem previous_mem_build (s : CollectionPaginationState) (x : PageLink)
    (hx : x ∈ (CollectionPaginationState.previous s).toList) :
    ∃ l o, x = s.build l o := by
  unfold CollectionPaginationState.previous at hx
  by_cases hc : s.offset - s.limit ≥ 0
  · rw [if_pos hc] at hx
    simp at hx
    exact ⟨_, _, hx⟩
  · rw [if_neg hc] at hx
    simp at hx

theorem next_mem_build (s : CollectionPaginationState) (x : PageLink)
    (hx : x ∈ (CollectionPaginationState.next s).toList) :
    ∃ l o, x = s.build l o := by
  unfold CollectionPaginationState.next at hx
  by_cases hc : s.total ≥ s.offset + s.limit
  · rw [if_pos hc] at hx
    simp at hx
    exact ⟨_, _, hx⟩
  · rw [if_neg hc] at hx
    simp at hx

theorem mem_allLinks_eq_build (s : CollectionPaginationState) (link : PageLink)
    (h : link ∈ s.allLinks) : ∃ l o, link = s.build l o := by
  simp only [CollectionPaginationState.allLinks, List.mem_append, List.mem_cons,
    List.not_mem_nil, or_false] at h
  rcases h with (((h | h) | h) | h) | h
  · exact ⟨s.limit, s.offset, h⟩
  · exact ⟨s.limit, 0, h⟩
  · exact last_mem_build s link h
  · exact previous_mem_build s link h
  · exact next_mem_build s link h

/-- C9.  For every generated pagination link (`self`, `first`, `last`,
`prev`, `next`), every query parameter of the originating request
other than `page` appears unchanged in the link's query object, and
any two links of one response agree on everything except `page`. -/
theorem c9_frame_preservation (url : String) (parsed : ParsedQs)
    (limit offset total : Int) (k : String) (hk : k ≠ "page")
    (link1 link2 : PageLink)
    (h1 : link1 ∈ (CollectionPaginationState.mk url parsed limit offset total).allLinks)
    (h2 : link2 ∈ (CollectionPaginationState.mk url parsed limit offset total).allLinks) :
    alookup link1.params k = (alookup parsed k).map SVal.pass ∧
    alookup link1.params k = alookup link2.params k := by
  obtain ⟨l1, o1, rfl⟩ := mem_allLinks_eq_build _ _ h1
  obtain ⟨l2, o2, rfl⟩ := mem_allLinks_eq_build _ _ h2
  rw [CollectionPaginationState.alookup_build_ne _ _ _ _ hk,
    CollectionPaginationState.alookup_build_ne _ _ _ _ hk]
  exact ⟨rfl, rfl⟩

/-- C9 (witness): with a `filter` parameter and a custom parameter in
the original request, the `self` and `first` links agree with the
request (and each other) on both. -/
theorem c9_frame_preservation_witness :
    alookup (CollectionPaginationState.self
        (CollectionPaginationState.mk "u"
          [("filter", Qs.obj [("status", Qs.str "published")])] 10 0 25)).params
      "filter"
      = (alookup [("filter", Qs.obj [("status", Qs.str "published")])]
          "filter").map SVal.pass ∧
    alookup (CollectionPaginationState.self
        (CollectionPaginationState.mk "u"
          [("filter", Qs.obj [("status", Qs.str "published")])] 10 0 25)).params
      "filter"
      = alookup (CollectionPaginationState.first
        (CollectionPaginationState.mk "u"
          [("filter", Qs.obj [("status", Qs.str "published")])] 10 0 25)).params
      "filter" :=
  c9_frame_preservation "u" [("filter", Qs.obj [("status", Qs.str "published")])]
    10 0 25 "filter" (by decide) _ _
    (by simp [CollectionPaginationState.allLinks])
    (by simp [CollectionPaginationState.allLinks])

/-! ## Claim C3 — cursor precedence -/

/-- C3 (counterexample).  The claim states that any page block
containing a `cursor` key is treated as cursor pagination and never
yields an offset page.  When the `cursor` key holds a non-string value
(raw query `page[cursor][a]=1&page[offset]=5&page[limit]=10`), the
code falls through to the offset branch and returns an offset page,
although the block contains a `cursor` key. -/
theorem c3_cursor_key_cex :
    (alookup [("cursor", Qs.obj [("a", Qs.str "1")]), ("offset", Qs.str "5"),
        ("limit", Qs.str "10")] "cursor").isSome = true ∧
    (parser [("page", Qs.obj [("cursor", Qs.obj [("a", Qs.str "1")]),
        ("offset", Qs.str "5"), ("limit", Qs.str "10")])]).page
      = some (Page.offset ⟨5, 10⟩) := by
  exact ⟨rfl, by decide⟩

/-- C3 (amended).  For every query whose page block contains a
`cursor` key *with a string value*, the parse result's page, when
present, is a cursor page carrying that cursor, with `field`
defaulting to `"id"` when the `field` key is absent or non-string and
`limit` the parsed (or default `10`) limit — never an offset page,
even when `offset` and/or `limit` keys are present in the same
block. -/
theorem c3_cursor_precedence (p : ParsedQs) (m : List (String × Qs)) (c : String)
    (hp : alookup p "page" = some (.obj m))
    (hc : alookup m "cursor" = some (.str c)) :
    (parser p).page = none ∨
    (parser p).page = some (Page.cursor
      ⟨c,
       (match alookup m "field" with
         | some (.str f) => f
         | _ => "id"),
       (match alookup m "limit" with
         | some (.str l) => parseIntJS l
         | _ => some 10).getD 0⟩) := by
  have hpage : (parser p).page = parsePageParameter m := by
    simp [parser, hp, Qs.isObjectLike, qsEntries]
  rw [hpage]
  unfold parsePageParameter
  rw [hc]
  dsimp only
  split
  · right
    rfl
  · left
    rfl

/-- C3 (witness): the spec's own example
`page[cursor]=abc&page[offset]=5&page[limit]=10` yields the cursor
page `{cursor: "abc", field: "id", limit: 10}`. -/
theorem c3_cursor_precedence_witness :
    (parser [("page", Qs.obj [("cursor", Qs.str "abc"),
        ("offset", Qs.str "5"), ("limit", Qs.str "10")])]).page = none ∨
    (parser [("page", Qs.obj [("cursor", Qs.str "abc"),
        ("offset", Qs.str "5"), ("limit", Qs.str "10")])]).page
      = some (Page.cursor
        ⟨"abc",
         (match alookup [("cursor", Qs.str "abc"), ("offset", Qs.str "5"),
             ("limit", Qs.str "10")] "field" with
           | some (.str f) => f
           | _ => "id"),
         (match alookup [("cursor", Qs.str "abc"), ("offset", Qs.str "5"),
             ("limit", Qs.str "10")] "limit" with
           | some (.str l) => parseIntJS l
           | _ => some 10).getD 0⟩) :=
  c3_cursor_precedence
    [("page", Qs.obj [("cursor", Qs.str "abc"), ("offset", Qs.str "5"),
      ("limit", Qs.str "10")])]
    [("cursor", Qs.str "abc"), ("offset", Qs.str "5"), ("limit", Qs.str "10")]
    "abc" rfl rfl

/-! ## Claim C4 — invalid offset page block is dropped -/

/-- C4.  For every query whose offset-pagination page block provides
an offset or limit that does not parse as a safe integer, a negative
offset, or a non-positive limit, the parse raises no error (the
embedded `parser` is a total function, faithfully to the throw-free
source) and returns a query with no page, while every other member
(`sort`, `filter`, `fields`, `include`, custom keys) equals the parse
of the same query with the page block removed. -/
theorem c4_invalid_page_drop (p : ParsedQs) (m : List (String × Qs))
    (hp : alookup p "page" = some (.obj m))
    (hcur : ∀ v, alookup m "cursor" = some v → v.isStr = false)
    (hol : (alookup m "offset").isSome ∨ (alookup m "limit").isSome)
    (hbad :
      (∃ s, alookup m "offset" = some (.str s) ∧
        ¬ (isSafeIntegerJS (parseIntJS s) = true ∧ (parseIntJS s).getD 0 ≥ 0)) ∨
      (∃ s, alookup m "limit" = some (.str s) ∧
        ¬ (isSafeIntegerJS (parseIntJS s) = true ∧ (parseIntJS s).getD 0 > 0))) :
    (parser p).page = none ∧
    nonPageParts (parser p) = nonPageParts (parser (removeKey p "page")) := by
  refine ⟨?_, parser_removeKey_page_frame p⟩
  have hpage : (parser p).page = parsePageParameter m := by
    simp [parser, hp, Qs.isObjectLike, qsEntries]
  rw [hpage]
  unfold parsePageParameter
  have hoffbranch :
      (match alookup m "cursor" with
        | some (.str c) => (0 : Nat)
        | _ => 1) = 1 := by
    match hcv : alookup m "cursor" with
    | none => rfl
    | some (.str c) => exact absurd (hcur _ hcv) (by simp [Qs.isStr])
    | some (.arr l) => rfl
    | some (.obj mm) => rfl
  match hcv : alookup m "cursor" with
  | some (.str c) => exact absurd (hcur _ hcv) (by simp [Qs.isStr])
  | none =>
    rw [if_pos hol]
    rcases hbad with ⟨s, hs, hbs⟩ | ⟨s, hs, hbs⟩
    · rw [hs]
      apply if_neg
      intro hcond
      exact hbs ⟨hcond.1, hcond.2.2.1⟩
    · rw [hs]
      apply if_neg
      intro hcond
      exact hbs ⟨hcond.2.1, hcond.2.2.2⟩
  | some (.arr l) =>
    rw [if_pos hol]
    rcases hbad with ⟨s, hs, hbs⟩ | ⟨s, hs, hbs⟩
    · rw [hs]
      apply if_neg
      intro hcond
      exact hbs ⟨hcond.1, hcond.2.2.1⟩
    · rw [hs]
      apply if_neg
      intro hcond
      exact hbs ⟨hcond.2.1, hcond.2.2.2⟩
  | some (.obj mm) =>
    rw [if_pos hol]
    rcases hbad with ⟨s, hs, hbs⟩ | ⟨s, hs, hbs⟩
    · rw [hs]
      apply if_neg
      intro hcond
      exact hbs ⟨hcond.1, hcond.2.2.1⟩
    · rw [hs]
      apply if_neg
      intro hcond
      exact hbs ⟨hcond.2.1, hcond.2.2.2⟩

/-- C4 (witness): the spec's instance
`page[offset]=-1&page[limit]=10&sort=a` yields no page and the same
other members as the page-free query. -/
theorem c4_invalid_page_drop_witness :
    (parser [("page", Qs.obj [("offset", Qs.str "-1"), ("limit", Qs.str "10")]),
        ("sort", Qs.str "a")]).page = none ∧
    nonPageParts (parser [("page", Qs.obj [("offset", Qs.str "-1"),
        ("limit", Qs.str "10")]), ("sort", Qs.str "a")])
      = nonPageParts (parser (removeKey
          [("page", Qs.obj [("offset", Qs.str "-1"), ("limit", Qs.str "10")]),
           ("sort", Qs.str "a")] "page")) :=
  c4_invalid_page_drop
    [("page", Qs.obj [("offset", Qs.str "-1"), ("limit", Qs.str "10")]),
     ("sort", Qs.str "a")]
    [("offset", Qs.str "-1"), ("limit", Qs.str "10")]
    rfl
    (fun v h => by simp [alookup] at h)
    (Or.inl (by decide))
    (Or.inl ⟨"-1", rfl, by decide⟩)

/-! ## Claim C6 — sparse fieldsets -/

/-- C6 (counterexample).  The claim states `fields` never binds a type
to an empty mapping.  For the raw query `fields[articles]=` the parser
assigns `fields[articles] = {}` before the (empty) field loop, so the
key is bound to an empty mapping although no field was requested. -/
theorem c6_empty_fieldset_cex :
    (parser [("fields", Qs.obj [("articles", Qs.str "")])]).fields
      = [("articles", [])] ∧
    alookup (parser [("fields", Qs.obj [("articles", Qs.str "")])]).fields
      "articles" = some ([] : FieldSet) := by
  exact ⟨rfl, rfl⟩

/-- C6 (amended).  For a fields block with distinct resource-type keys
(as JavaScript objects guarantee), the parsed `fields` mapping binds a
type `t` exactly when the block binds `t` to a string, in which case
the binding is the token map of that string: the nonempty trimmed
comma-separated tokens, each marked `1` — which is the empty mapping
exactly when the string has no valid token.  A type without a string
entry is entirely absent. -/
theorem c6_fields_amended (entries : List (String × Qs)) (t : String)
    (hnd : (keysOf entries).Nodup) :
    alookup (parseFieldsParameter entries) t
      = match alookup entries t with
        | some (.str s) => some (fieldTokens s)
        | _ => none := by
  unfold parseFieldsParameter
  rw [fields_foldl_lookup entries [] t hnd]
  match alookup entries t with
  | none => rfl
  | some (.str s) => rfl
  | some (.arr l) => rfl
  | some (.obj m) => rfl

/-- C6 (witness): `fields[articles]=title,body` with no entry for
`people` binds `articles` to `{title: 1, body: 1}` and leaves `people`
absent. -/
theorem c6_fields_amended_witness :
    (alookup (parseFieldsParameter [("articles", Qs.str "title,body")]) "articles"
      = match alookup [("articles", Qs.str "title,body")] "articles" with
        | some (.str s) => some (fieldTokens s)
        | _ => none) ∧
    (alookup (parseFieldsParameter [("articles", Qs.str "title,body")]) "people"
      = match alookup [("articles", Qs.str "title,body")] "people" with
        | some (.str s) => some (fieldTokens s)
        | _ => none) :=
  ⟨c6_fields_amended [("articles", Qs.str "title,body")] "articles" (by decide),
   c6_fields_amended [("articles", Qs.str "title,body")] "people" (by decide)⟩

/-! ## Claim C8 — include list -/

theorem count_filter_eq [DecidableEq α] (p : α → Bool) (a : α) (l : List α)
    (h : p a = true) : (l.filter p).count a = l.count a := by
  induction l with
  | nil => rfl
  | cons b bs ih =>
    by_cases hb : p b = true
    · rw [List.filter_cons_of_pos hb]
      simp [List.count_cons, ih]
    · rw [List.filter_cons_of_neg (by simpa using hb)]
      have hab : (a == b) = false := by
        by_cases e : a = b
        · subst e
          exact absurd h hb
        · simpa using e
      simp [List.count_cons, hab, ih]
      exact fun e => hb (by rw [e]; exact h)

/-- C8 (counterexample).  The claim states duplicate entries are
removed from `include`.  Parsing `include=a,a` yields `["a", "a"]`:
duplicates are preserved. -/
theorem c8_include_dup_cex :
    (parser [("include", Qs.str "a,a")]).incl = some ["a", "a"] ∧
    ¬ (["a", "a"] : List String).Nodup := by
  exact ⟨rfl, by decide⟩

/-- C8 (amended).  For every raw `include` value, the parsed include
list is the ordered sequence of comma-separated trimmed entries with
only the empty entries removed: it contains no empty string, it is a
sublist (order preserved) of the trimmed raw entries, and every
nonempty entry keeps its exact multiplicity (duplicates are NOT
removed). -/
theorem c8_include_amended (s : String) :
    ("" ∉ parseIncludeParameter s) ∧
    (parseIncludeParameter s).Sublist
      (((s.data.splitOn ',').map trimChars).map String.mk) ∧
    (∀ x : String, x ≠ "" →
      (parseIncludeParameter s).count x
        = (((s.data.splitOn ',').map trimChars).map String.mk).count x) := by
  refine ⟨?_, ?_, ?_⟩
  · intro hmem
    unfold parseIncludeParameter commaTokens at hmem
    obtain ⟨t, ht, hmk⟩ := List.mem_map.mp hmem
    have := List.of_mem_filter ht
    simp at this
    exact this (congrArg String.data hmk)
  · unfold parseIncludeParameter commaTokens
    exact (List.filter_sublist _).map String.mk
  · intro x hx
    unfold parseIncludeParameter commaTokens
    have hxd : x = String.mk x.data := rfl
    rw [hxd, List.count_map_of_injective _ String.mk string_mk_injective,
      List.count_map_of_injective _ String.mk string_mk_injective]
    refine count_filter_eq _ _ _ ?_
    simp [String.ext_iff] at hx
    simpa using hx

/-- C8 (witness): for the raw value `a, ,a` the parsed list keeps both
copies of `a` (multiplicity 2) while the empty entry is dropped. -/
theorem c8_include_amended_witness :
    ("" ∉ parseIncludeParameter "a, ,a") ∧
    (parseIncludeParameter "a, ,a").Sublist
      ((((("a, ,a" : String).data.splitOn ',')).map trimChars).map String.mk) ∧
    (parseIncludeParameter "a, ,a").count "a"
      = ((((("a, ,a" : String).data.splitOn ',')).map trimChars).map String.mk).count "a" :=
  ⟨(c8_include_amended "a, ,a").1, (c8_include_amended "a, ,a").2.1,
   (c8_include_amended "a, ,a").2.2 "a" (by decide)⟩

/-! ## Claim C7 — builder failure semantics -/

/-- C7 (counterexample).  The claim states that setting primary data
in a shape incompatible with the one the builder committed to raises
an error immediately at the setter call.  Setting collection data and
then single-resource data on the same builder does not error: the
second call silently overwrites the first, and the run ends in `.ok`. -/
theorem c7_shape_conflict_cex :
    runBuilder
      [BuilderOp.data (PrimaryData.collection [⟨"articles", some "1", []⟩]),
       BuilderOp.data (PrimaryData.single (some ⟨"articles", some "2", []⟩))]
      initDoc
      = Except.ok
          { jsonapi := some "1.0",
            data := some (PrimaryData.single (some ⟨"articles", some "2", []⟩)),
            meta := none, links := none, included := none } ∧
    (runBuilder
      [BuilderOp.data (PrimaryData.collection [⟨"articles", some "1", []⟩]),
       BuilderOp.data (PrimaryData.single (some ⟨"articles", some "2", []⟩))]
      initDoc).isOk = true := by
  exact ⟨rfl, rfl⟩

/-- C7 (amended).  Builder methods never raise an error at all: every
sequence of builder calls (including conflicting `data` shapes)
returns `.ok`, missing optional data included, and the document's
primary data is simply the value of the last `data` call — shape
compatibility is enforced only statically by the TypeScript types, not
at runtime. -/
theorem c7_amended_never_throws (ops : List BuilderOp) (b : DocState) :
    ∃ d, runBuilder ops b = .ok d ∧ d.data = lastDataOf ops b.data := by
  obtain ⟨d, hd, _, hdata⟩ := runBuilder_ok ops b
  exact ⟨d, hd, hdata⟩

/-! ## Claim C10 — `jsonapi` member invariant -/

/-- C10.  Every document built by the builder classes and by the
functional pipelines (`jsonApi`, `collectionDocument`,
`resourceDocument`) carries `jsonapi` with version `"1.0"`, set at
construction; no sequence of builder operations (`data`, `metadata`,
`links`, `included` or the functional update fns) modifies or removes
it. -/
theorem c10_jsonapi_invariant :
    (∀ ops d, runBuilder ops initDoc = .ok d → d.jsonapi = some "1.0") ∧
    (∀ fns, (jsonApi fns).jsonapi = some "1.0" ∧
      (collectionDocument fns).jsonapi = some "1.0" ∧
      (resourceDocument fns).jsonapi = some "1.0") := by
  constructor
  · intro ops d h
    obtain ⟨d', hd', hj, _⟩ := runBuilder_ok ops initDoc
    rw [h] at hd'
    cases hd'
    exact hj
  · intro fns
    refine ⟨?_, ?_, ?_⟩ <;>
      simpa [jsonApi, collectionDocument, resourceDocument]
        using jsonApi_foldl_jsonapi fns _

/-- C10 (witness): a concrete builder run and a concrete functional
pipeline both end with `jsonapi` version `"1.0"`. -/
theorem c10_jsonapi_invariant_witness :
    ({ jsonapi := some "1.0",
       data := some (PrimaryData.collection []),
       meta := some [("total", "0")], links := none,
       included := none } : DocState).jsonapi = some "1.0" ∧
    (jsonApi [DocFn.dataCollectionF [], DocFn.metaF [("total", "0")]]).jsonapi
      = some "1.0" :=
  ⟨c10_jsonapi_invariant.1
      [BuilderOp.data (PrimaryData.collection []),
       BuilderOp.metadata [("total", "0")]]
      { jsonapi := some "1.0",
        data := some (PrimaryData.collection []),
        meta := some [("total", "0")], links := none, included := none }
      (by rfl),
   (c10_jsonapi_invariant.2
      [DocFn.dataCollectionF [], DocFn.metaF [("total", "0")]]).1⟩

/-! ## Token lemmas for the round-trip law -/

theorem splitOnP_not_pred (p : α → Bool) (l : List α) :
    ∀ t ∈ l.splitOnP p, ∀ c ∈ t, p c = false := by
  induction l with
  | nil =>
    intro t ht
    rw [List.splitOnP_nil] at ht
    simp at ht
    subst ht
    simp
  | cons x xs ih =>
    intro t ht
    rw [List.splitOnP_cons] at ht
    by_cases hx : p x = true
    · rw [if_pos hx] at ht
      rcases List.mem_cons.mp ht with rfl | ht'
      · simp
      · exact ih t ht'
    · rw [if_neg hx] at ht
      obtain ⟨hd, tl, hsplit⟩ := List.exists_cons_of_ne_nil (List.splitOnP_ne_nil p xs)
      rw [hsplit, List.modifyHead_cons] at ht
      rcases List.mem_cons.mp ht with rfl | ht'
      · intro c hc
        rcases List.mem_cons.mp hc with rfl | hc'
        · simpa using hx
        · exact ih hd (by rw [hsplit]; exact List.mem_cons_self _ _) c hc'
      · exact ih t (by rw [hsplit]; exact List.mem_cons_of_mem _ ht')

theorem splitOn_comma_not_mem (l : List Char) (t : List Char)
    (ht : t ∈ l.splitOn ',') : ',' ∉ t := by
  intro hc
  have h := splitOnP_not_pred (· == ',') l t (by simpa [List.splitOn] using ht) ',' hc
  simp at h

theorem dropWhile_idem (p : α → Bool) (l : List α) :
    (l.dropWhile p).dropWhile p = l.dropWhile p := by
  induction l with
  | nil => rfl
  | cons a l ih =>
    by_cases h : p a = true
    · rw [List.dropWhile_cons_of_pos h]
      exact ih
    · rw [List.dropWhile_cons_of_neg h, List.dropWhile_cons_of_neg h]

theorem head_dropWhile_false (p : α → Bool) (l : List α) (c : α)
    (h : (l.dropWhile p).head? = some c) : p c = false := by
  induction l with
  | nil => simp at h
  | cons a l ih =>
    by_cases ha : p a = true
    · rw [List.dropWhile_cons_of_pos ha] at h
      exact ih h
    · rw [List.dropWhile_cons_of_neg ha] at h
      simp at h
      subst h
      simpa using ha

theorem dropWhile_eq_self_of_head (p : α → Bool) (l : List α)
    (h : ∀ c, l.head? = some c → p c = false) : l.dropWhile p = l := by
  cases l with
  | nil => rfl
  | cons a l => exact List.dropWhile_cons_of_neg (by simp [h a rfl])

theorem mem_trimChars (c : Char) (cs : List Char) (h : c ∈ trimChars cs) :
    c ∈ cs := by
  unfold trimChars at h
  rw [List.mem_reverse] at h
  have h1 := (List.dropWhile_sublist (l := (cs.dropWhile Char.isWhitespace).reverse)
    Char.isWhitespace).mem h
  rw [List.mem_reverse] at h1
  exact (List.dropWhile_sublist Char.isWhitespace).mem h1

theorem getLast_dropWhile_of_ne_nil (p : α → Bool) (l : List α)
    (h : l.dropWhile p ≠ []) : (l.dropWhile p).getLast? = l.getLast? := by
  obtain ⟨pre, hpre⟩ := (List.dropWhile_suffix (l := l) p)
  conv_rhs => rw [← hpre]
  rw [List.getLast?_append]
  cases hx : (l.dropWhile p).getLast? with
  | some c => rfl
  | none => exact absurd (List.getLast?_eq_none_iff.mp hx) h

theorem trimChars_head_not_ws (cs : List Char) (c : Char)
    (h : (trimChars cs).head? = some c) : c.isWhitespace = false := by
  unfold trimChars at h
  rw [List.head?_reverse] at h
  have hne : (cs.dropWhile Char.isWhitespace).reverse.dropWhile
      Char.isWhitespace ≠ [] := by
    intro hnil
    rw [hnil] at h
    simp at h
  rw [getLast_dropWhile_of_ne_nil _ _ hne, List.getLast?_reverse] at h
  exact head_dropWhile_false _ _ _ h

theorem trimChars_idem (cs : List Char) : trimChars (trimChars cs) = trimChars cs := by
  have h1 : (trimChars cs).dropWhile Char.isWhitespace = trimChars cs :=
    dropWhile_eq_self_of_head _ _ (fun c hc => trimChars_head_not_ws cs c hc)
  show ((((trimChars cs).dropWhile Char.isWhitespace).reverse).dropWhile
      Char.isWhitespace).reverse = trimChars cs
  rw [h1]
  unfold trimChars
  rw [List.reverse_reverse, dropWhile_idem]

theorem commaTokens_goodTok (cs : List Char) :
    ∀ t ∈ commaTokens cs, goodTok t = true := by
  intro t ht
  unfold commaTokens at ht
  have hne := List.of_mem_filter ht
  simp at hne
  have hmem := List.mem_of_mem_filter ht
  obtain ⟨t0, ht0, rfl⟩ := List.mem_map.mp hmem
  simp only [goodTok, Bool.and_eq_true, decide_eq_true_eq]
  refine ⟨⟨by simpa using hne, trimChars_idem t0⟩, ?_⟩
  intro hcm
  exact splitOn_comma_not_mem cs t0 ht0 (mem_trimChars ',' t0 hcm)

theorem commaTokens_joinComma (ls : List (List Char))
    (h1 : ls ≠ []) (h2 : ∀ t ∈ ls, goodTok t = true) :
    commaTokens (joinComma ls) = ls := by
  unfold commaTokens joinComma
  have hs : (List.intercalate [','] ls).splitOn ',' = ls :=

    List.splitOn_intercalate ls ','
      (fun l hl hc => by
        have := h2 l hl
        simp only [goodTok, Bool.and_eq_true, decide_eq_true_eq] at this
        exact this.2 hc)
      h1
  rw [hs]
  have hm : ls.map trimChars = ls := by
    rw [List.map_congr_left (fun t ht => by
      have := h2 t ht
      simp only [goodTok, Bool.and_eq_true, decide_eq_true_eq] at this
      exact this.1.2)]
    exact List.map_id ls
  rw [hm]
  rw [List.filter_eq_self.mpr]
  intro t ht
  have := h2 t ht
  simp only [goodTok, Bool.and_eq_true, decide_eq_true_eq] at this
  simpa using this.1.1

/-! ## Decimal rendering lemmas -/

theorem decDigit_facts (d : Nat) (h : d < 10) :
    (decDigit d).isDigit = true ∧ digitVal (decDigit d) = d ∧
    (decDigit d).isWhitespace = false ∧ decDigit d ≠ '-' ∧ decDigit d ≠ '+' := by
  interval_cases d <;> exact ⟨by decide, by decide, by decide, by decide, by decide⟩

theorem renderNat_ne_nil (n : Nat) : renderNat n ≠ [] := by
  rw [renderNat]
  split
  · simp
  · simp

theorem renderNat_chars (n : Nat) :
    ∀ c ∈ renderNat n, c.isDigit = true ∧ c.isWhitespace = false ∧
      c ≠ '-' ∧ c ≠ '+' := by
  induction n using Nat.strong_induction_on with
  | _ n ih =>
    rw [renderNat]
    split
    · rename_i h
      intro c hc
      simp at hc
      subst hc
      obtain ⟨h1, _, h3, h4, h5⟩ := decDigit_facts n h
      exact ⟨h1, h3, h4, h5⟩
    · rename_i h
      intro c hc
      rcases List.mem_append.mp hc with h1 | h2
      · exact ih (n / 10) (Nat.div_lt_self (by omega) (by omega)) c h1
      · simp at h2
        subst h2
        obtain ⟨g1, _, g3, g4, g5⟩ := decDigit_facts (n % 10) (Nat.mod_lt _ (by omega))
        exact ⟨g1, g3, g4, g5⟩

theorem foldl_digits_renderNat (n : Nat) :
    (renderNat n).foldl (fun a c => 10 * a + digitVal c) 0 = n := by
  induction n using Nat.strong_induction_on with
  | _ n ih =>
    rw [renderNat]
    split
    · rename_i h
      simp [(decDigit_facts n h).2.1]
    · rename_i h
      rw [List.foldl_append,
        ih (n / 10) (Nat.div_lt_self (by omega) (by omega))]
      simp only [List.foldl_cons, List.foldl_nil,
        (decDigit_facts (n % 10) (Nat.mod_lt _ (by omega))).2.1]
      omega

theorem leadingDigits_renderNat (n : Nat) :
    leadingDigits (renderNat n) = some n := by
  unfold leadingDigits
  rw [List.takeWhile_eq_self_iff.mpr (fun c hc => (renderNat_chars n c hc).1)]
  rw [if_neg (renderNat_ne_nil n)]
  rw [foldl_digits_renderNat n]

theorem parseIntJS_renderInt (n : Int) (h : 0 ≤ n) :
    parseIntJS (String.mk (renderInt n)) = some n := by
  unfold parseIntJS renderInt
  rw [if_neg (by omega)]
  have hchars := renderNat_chars n.toNat
  show (match (renderNat n.toNat).dropWhile Char.isWhitespace with
    | [] => none
    | c :: rest =>
      if c = '-' then (leadingDigits rest).map (fun n => -(n : Int))
      else if c = '+' then (leadingDigits rest).map (fun n => (n : Int))
      else (leadingDigits (c :: rest)).map (fun n => (n : Int))) = some n
  rw [dropWhile_eq_self_of_head _ _ (fun c hc =>
    (hchars c (List.mem_of_mem_head? hc)).2.1)]
  cases hrn : renderNat n.toNat with
  | nil => exact absurd hrn (renderNat_ne_nil n.toNat)
  | cons c rest =>
    have hc := hchars c (by rw [hrn]; exact List.mem_cons_self _ _)
    dsimp only
    rw [if_neg hc.2.2.1, if_neg hc.2.2.2]
    rw [← hrn, leadingDigits_renderNat n.toNat]
    simp [Int.toNat_of_nonneg h]

/-! ## The `qs` round-trip is the identity on well-formed values -/

mutual

theorem qsNormVal_wf (v : Qs) (h : v.wf = true) : qsNormVal v = some v := by
  cases v with
  | str s => rfl
  | arr l =>
    simp only [Qs.wf, Bool.and_eq_true] at h
    rw [qsNormVal, qsNormList_wf l h.2]
    cases l with
    | nil => simp at h
    | cons a as => rfl
  | obj m =>
    simp only [Qs.wf, Bool.and_eq_true] at h
    rw [qsNormVal, qsNormEntries_wf m h.2]
    cases m with
    | nil => simp at h
    | cons e rest => rfl

theorem qsNormList_wf (l : List Qs) (h : Qs.wfList l = true) :
    qsNormList l = l := by
  cases l with
  | nil => rfl
  | cons v vs =>
    simp only [Qs.wfList, Bool.and_eq_true] at h
    rw [qsNormList, qsNormVal_wf v h.1, qsNormList_wf vs h.2]

theorem qsNormEntries_wf (m : List (String × Qs)) (h : Qs.wfEntries m = true) :
    qsNormEntries m = m := by
  cases m with
  | nil => rfl
  | cons e rest =>
    simp only [Qs.wfEntries, Bool.and_eq_true] at h
    rw [qsNormEntries, qsNormVal_wf e.2 h.1, qsNormEntries_wf rest h.2]

end

/-! ## Normalization of the serializer output -/

theorem qsNormSEntries_append (a b : SObj) :
    qsNormSEntries (a ++ b) = qsNormSEntries a ++ qsNormSEntries b := by
  induction a with
  | nil => rfl
  | cons e rest ih =>
    obtain ⟨k, v⟩ := e
    rw [List.cons_append, qsNormSEntries, qsNormSEntries]
    cases qsNormSVal v with
    | some v' => rw [ih, List.cons_append]
    | none => rw [ih]

theorem alookup_append (a b : List (String × α)) (k : String) :
    alookup (a ++ b) k = (alookup a k).or (alookup b k) := by
  induction a with
  | nil => simp [alookup]
  | cons e rest ih =>
    obtain ⟨k0, v0⟩ := e
    by_cases h : k0 = k <;> simp [alookup, h, ih]

theorem mem_qsNormSEntries_key (m : SObj) (e : String × Qs)
    (h : e ∈ qsNormSEntries m) : e.1 ∈ keysOf m := by
  induction m with
  | nil => simp [qsNormSEntries] at h
  | cons e0 rest ih =>
    obtain ⟨k0, v0⟩ := e0
    rw [qsNormSEntries] at h
    cases hv : qsNormSVal v0 with
    | some v' =>
      rw [hv] at h
      rcases List.mem_cons.mp h with rfl | h'
      · simp [keysOf]
      · simp only [keysOf, List.map_cons, List.mem_cons]
        right
        simpa [keysOf] using ih h'
    | none =>
      rw [hv] at h
      simp only [keysOf, List.map_cons, List.mem_cons]
      right
      simpa [keysOf] using ih h

theorem alookup_qsNormS_none (m : SObj) (k : String)
    (h : ∀ e ∈ m, e.1 ≠ k) : alookup (qsNormSEntries m) k = none := by
  apply alookup_eq_none_of_not_mem
  intro hk
  simp only [keysOf, List.mem_map] at hk
  obtain ⟨e, he, hek⟩ := hk
  have hkey := mem_qsNormSEntries_key m e he
  simp only [keysOf, List.mem_map] at hkey
  obtain ⟨e0, he0, hee⟩ := hkey
  exact h e0 he0 (by rw [hee, hek])

theorem qsNormSEntries_map_pass (m : ParsedQs) (h : Qs.wfEntries m = true) :
    qsNormSEntries (m.map fun e => (e.1, SVal.pass e.2)) = m := by
  induction m with
  | nil => rfl
  | cons e rest ih =>
    simp only [Qs.wfEntries, Bool.and_eq_true] at h
    rw [List.map_cons, qsNormSEntries]
    show (match qsNormVal e.2 with
      | some v' => (e.1, v') :: qsNormSEntries (rest.map fun x => (x.1, SVal.pass x.2))
      | none => qsNormSEntries (rest.map fun x => (x.1, SVal.pass x.2))) = e :: rest
    rw [qsNormVal_wf e.2 h.1, ih h.2]

theorem qsNormSEntries_map_str (m : List (String × String)) :
    qsNormSEntries (m.map fun e => (e.1, SVal.str e.2))
      = m.map fun e => (e.1, Qs.str e.2) := by
  induction m with
  | nil => rfl
  | cons e rest ih =>
    rw [List.map_cons, qsNormSEntries]
    show (e.1, Qs.str e.2) :: qsNormSEntries (rest.map fun x => (x.1, SVal.str x.2))
      = (e.1, Qs.str e.2) :: rest.map fun x => (x.1, Qs.str x.2)
    rw [ih]

/-! ## Fold rebuild lemmas -/

theorem jsAssign_append_fresh (m : List (String × α)) (k : String) (v : α)
    (h : k ∉ keysOf m) : jsAssign m k v = m ++ [(k, v)] := by
  induction m with
  | nil => rfl
  | cons e rest ih =>
    obtain ⟨k0, v0⟩ := e
    simp only [keysOf, List.map_cons, List.mem_cons, not_or] at h
    rw [jsAssign, if_neg (fun hh => h.1 hh.symm), List.cons_append,
      ih (by simpa [keysOf] using h.2)]

theorem foldl_jsAssign_rebuild (l : List (String × α)) (acc : List (String × α))
    (hnd : (keysOf (acc ++ l)).Nodup) :
    l.foldl (fun m e => jsAssign m e.1 e.2) acc = acc ++ l := by
  induction l generalizing acc with
  | nil => simp
  | cons e l' ih =>
    have hfresh : e.1 ∉ keysOf acc := by
      simp only [keysOf, List.map_append, List.nodup_append] at hnd
      intro hmem
      exact hnd.2.2 hmem (by simp [List.map_cons])
    rw [List.foldl_cons, jsAssign_append_fresh acc e.1 e.2 hfresh]
    have hsingle : acc ++ [(e.1, e.2)] = acc ++ [e] := by simp
    rw [hsingle, ih (acc ++ [e]) (by simpa [keysOf, List.append_assoc] using hnd)]
    simp [List.append_assoc]

theorem mem_jsAssign (m : List (String × α)) (k : String) (v : α)
    (e : String × α) (h : e ∈ jsAssign m k v) : e ∈ m ∨ e = (k, v) := by
  induction m with
  | nil =>
    simp [jsAssign] at h
    exact Or.inr h
  | cons e0 rest ih =>
    obtain ⟨k0, v0⟩ := e0
    rw [jsAssign] at h
    by_cases h0 : k0 = k
    · rw [if_pos h0] at h
      rcases List.mem_cons.mp h with rfl | h'
      · exact Or.inr rfl
      · exact Or.inl (List.mem_cons_of_mem _ h')
    · rw [if_neg h0] at h
      rcases List.mem_cons.mp h with rfl | h'
      · exact Or.inl (List.mem_cons_self _ _)
      · rcases ih h' with h'' | h''
        · exact Or.inl (List.mem_cons_of_mem _ h'')
        · exact Or.inr h''

theorem keysOf_jsAssign (m : List (String × α)) (k : String) (v : α) :
    keysOf (jsAssign m k v) = if k ∈ keysOf m then keysOf m else keysOf m ++ [k] := by
  induction m with
  | nil => simp [jsAssign, keysOf]
  | cons e0 rest ih =>
    obtain ⟨k0, v0⟩ := e0
    rw [jsAssign]
    by_cases h0 : k0 = k
    · subst h0
      simp [keysOf]
    · rw [if_neg h0]
      simp only [keysOf, List.map_cons] at ih ⊢
      rw [ih]
      by_cases hm : k ∈ List.map Prod.fst rest
      · rw [if_pos hm, if_pos (by simp [hm])]
      · rw [if_neg hm, if_neg (by
          simp only [List.mem_cons, not_or]
          exact ⟨fun h => h0 h.symm, hm⟩), List.cons_append]

theorem keysOf_jsAssign_nodup (m : List (String × α)) (k : String) (v : α)
    (h : (keysOf m).Nodup) : (keysOf (jsAssign m k v)).Nodup := by
  rw [keysOf_jsAssign]
  by_cases hm : k ∈ keysOf m
  · rwa [if_pos hm]
  · rw [if_neg hm]
    simp [List.nodup_append, h, hm]

/-- Generic invariant-preservation of a `jsAssign` fold. -/
theorem foldl_jsAssign_good (P : (String × α) → Bool) (g : β → String × α)
    (toks : List β) (acc : List (String × α))
    (htoks : ∀ t ∈ toks, P (g t) = true)
    (hacc : ∀ e ∈ acc, P e = true) (hnd : (keysOf acc).Nodup) :
    (∀ e ∈ toks.foldl (fun m t => jsAssign m (g t).1 (g t).2) acc, P e = true) ∧
    (keysOf (toks.foldl (fun m t => jsAssign m (g t).1 (g t).2) acc)).Nodup := by
  induction toks generalizing acc with
  | nil => exact ⟨hacc, hnd⟩
  | cons t toks' ih =>
    rw [List.foldl_cons]
    apply ih
    · intro t' ht'
      exact htoks t' (List.mem_cons_of_mem _ ht')
    · intro e he
      rcases mem_jsAssign _ _ _ _ he with h' | h'
      · exact hacc e h'
      · rw [h']
        exact htoks t (List.mem_cons_self _ _)
    · exact keysOf_jsAssign_nodup _ _ _ hnd

/-! ## Sort parameter: invariants and round trip -/

/-- The entry `parseSortParameter` builds from one token. -/
def sortEntryOf (t : List Char) : String × Int :=
  if t.head? = some '-' then (String.mk t.tail, -1) else (String.mk t, 1)

theorem sortEntryOf_good (t : List Char) (h : goodTok t = true) :
    goodSortEntry (sortEntryOf t) = true := by
  unfold sortEntryOf
  by_cases hh : t.head? = some '-'
  · rw [if_pos hh]
    cases t with
    | nil => simp at hh
    | cons c rest =>
      simp at hh
      subst hh
      simp only [goodSortEntry, Bool.or_eq_true, Bool.and_eq_true, decide_eq_true_eq]
      exact Or.inl ⟨trivial, by simpa using h⟩
  · rw [if_neg hh]
    simp only [goodSortEntry, Bool.or_eq_true, Bool.and_eq_true, decide_eq_true_eq]
    exact Or.inr ⟨⟨trivial, by simpa using h⟩, by simpa using hh⟩

theorem parseSortParameter_eq_fold (s : String) :
    parseSortParameter s = (commaTokens s.data).foldl
      (fun m t => jsAssign m (sortEntryOf t).1 (sortEntryOf t).2) [] := by
  unfold parseSortParameter
  apply List.foldl_ext
  intro acc t _
  unfold sortEntryOf
  by_cases hh : t.head? = some '-'
  · rw [if_pos hh, if_pos hh]
  · rw [if_neg hh, if_neg hh]

theorem parseSortParameter_good (s : String) :
    (∀ e ∈ parseSortParameter s, goodSortEntry e = true) ∧
    (keysOf (parseSortParameter s)).Nodup := by
  rw [parseSortParameter_eq_fold]
  exact foldl_jsAssign_good goodSortEntry sortEntryOf _ []
    (fun t ht => sortEntryOf_good t (commaTokens_goodTok s.data t ht))
    (by simp) (by simp [keysOf])

theorem sortToken_good (e : String × Int) (h : goodSortEntry e = true) :
    goodTok (sortToken e) = true := by
  simp only [goodSortEntry, Bool.or_eq_true, Bool.and_eq_true,
    decide_eq_true_eq] at h
  rcases h with ⟨hd, htok⟩ | ⟨⟨hd, htok⟩, _⟩
  · simpa [sortToken, hd] using htok
  · simpa [sortToken, hd] using htok

theorem parseSort_serializeSort (l : List (String × Int))
    (hne : l ≠ []) (hgood : ∀ e ∈ l, goodSortEntry e = true)
    (hnd : (keysOf l).Nodup) :
    parseSortParameter (serializeSortParameter l) = l := by
  rw [parseSortParameter_eq_fold]
  unfold serializeSortParameter
  rw [show (String.mk (joinComma (l.map sortToken))).data
    = joinComma (l.map sortToken) from rfl]
  rw [commaTokens_joinComma (l.map sortToken)
    (by simpa using hne)
    (by
      intro t ht
      obtain ⟨e, he, rfl⟩ := List.mem_map.mp ht
      exact sortToken_good e (hgood e he))]
  rw [List.foldl_map]
  rw [List.foldl_ext _ (fun m (e : String × Int) => jsAssign m e.1 e.2) _
    (fun acc e he => by
      have hg := hgood e he
      simp only [goodSortEntry, Bool.or_eq_true, Bool.and_eq_true,
        decide_eq_true_eq] at hg
      rcases hg with ⟨hd, _⟩ | ⟨⟨hd, _⟩, hhead⟩
      · show jsAssign acc (sortEntryOf (sortToken e)).1 (sortEntryOf (sortToken e)).2
          = jsAssign acc e.1 e.2
        rw [show sortToken e = '-' :: e.1.data by simp [sortToken, hd]]
        rw [show sortEntryOf ('-' :: e.1.data) = (e.1, -1) by
          simp [sortEntryOf]]
        rw [hd]
      · show jsAssign acc (sortEntryOf (sortToken e)).1 (sortEntryOf (sortToken e)).2
          = jsAssign acc e.1 e.2
        rw [show sortToken e = e.1.data by simp [sortToken, hd]]
        rw [show sortEntryOf e.1.data = (e.1, 1) by
          simp [sortEntryOf, hhead]]
        rw [hd])]
  exact foldl_jsAssign_rebuild l [] (by simpa [keysOf] using hnd)

/-! ## Fields parameter: invariants and round trip -/

theorem fieldTokens_eq_fold (s : String) :
    fieldTokens s = (commaTokens s.data).foldl
      (fun m t => jsAssign m (String.mk t, 1).1 (String.mk t, 1).2) [] := rfl

theorem fieldTokens_good (s : String) :
    (∀ e ∈ fieldTokens s, goodFieldEntry e = true) ∧
    (keysOf (fieldTokens s)).Nodup := by
  rw [fieldTokens_eq_fold]
  exact foldl_jsAssign_good goodFieldEntry (fun t => (String.mk t, 1)) _ []
    (fun t ht => by
      simp only [goodFieldEntry, Bool.and_eq_true, decide_eq_true_eq]
      exact ⟨trivial, by simpa using commaTokens_goodTok s.data t ht⟩)
    (by simp) (by simp [keysOf])

theorem filter_marks_eq (fm : FieldSet)
    (h : ∀ e ∈ fm, goodFieldEntry e = true) :
    fm.filter (fun kv => kv.2 = 1) = fm := by
  apply List.filter_eq_self.mpr
  intro e he
  have := h e he
  simp only [goodFieldEntry, Bool.and_eq_true, decide_eq_true_eq] at this
  simpa using this.1

theorem fieldTokens_rebuild (fm : FieldSet)
    (hne : fm ≠ []) (hgood : ∀ e ∈ fm, goodFieldEntry e = true)
    (hnd : (keysOf fm).Nodup) :
    fieldTokens (String.mk (joinComma ((fm.map (·.1)).map String.data))) = fm := by
  rw [fieldTokens_eq_fold]
  rw [show (String.mk (joinComma ((fm.map (·.1)).map String.data))).data
    = joinComma ((fm.map (·.1)).map String.data) from rfl]
  rw [commaTokens_joinComma _
    (by simpa using hne)
    (by
      intro t ht
      rw [List.map_map] at ht
      obtain ⟨e, he, rfl⟩ := List.mem_map.mp ht
      have := hgood e he
      simp only [goodFieldEntry, Bool.and_eq_true, decide_eq_true_eq] at this
      exact this.2)]
  rw [List.map_map, List.foldl_map]
  rw [List.foldl_ext _ (fun m (e : String × Nat) => jsAssign m e.1 e.2) _
    (fun acc e he => by
      have := hgood e he
      simp only [goodFieldEntry, Bool.and_eq_true, decide_eq_true_eq] at this
      show jsAssign acc (String.mk e.1.data) 1 = jsAssign acc e.1 e.2
      rw [this.1])]
  exact foldl_jsAssign_rebuild fm [] (by simpa [keysOf] using hnd)

theorem serializeFields_foldl (fs : List (String × FieldSet))
    (acc : List (String × String))
    (hrt : ∀ e ∈ fs, ((e.2.filter (fun kv => kv.2 = 1)).map (·.1)) ≠ []) :
    fs.foldl
      (fun res e =>
        if ((e.2.filter (fun kv => kv.2 = 1)).map (·.1)) ≠ [] then
          res ++ [(e.1, String.mk (joinComma
            (((e.2.filter (fun kv => kv.2 = 1)).map (·.1)).map String.data)))]
        else res)
      acc
      = acc ++ fs.map (fun e => (e.1, String.mk (joinComma
          (((e.2.filter (fun kv => kv.2 = 1)).map (·.1)).map String.data)))) := by
  induction fs generalizing acc with
  | nil => simp
  | cons e fs' ih =>
    rw [List.foldl_cons, if_pos (hrt e (List.mem_cons_self _ _))]
    rw [ih _ (fun e' he' => hrt e' (List.mem_cons_of_mem _ he'))]
    simp [List.append_assoc]

theorem serializeFields_map (fs : List (String × FieldSet))
    (hrt : ∀ e ∈ fs, ((e.2.filter (fun kv => kv.2 = 1)).map (·.1)) ≠ []) :
    serializeFieldsParameter fs
      = fs.map (fun e => (e.1, String.mk (joinComma
          (((e.2.filter (fun kv => kv.2 = 1)).map (·.1)).map String.data)))) := by
  unfold serializeFieldsParameter
  exact serializeFields_foldl fs [] hrt

theorem parseFields_round (fs : List (String × FieldSet))
    (hnd : (keysOf fs).Nodup)
    (hgood : ∀ e ∈ fs, (∀ fe ∈ e.2, goodFieldEntry fe = true) ∧
      (keysOf e.2).Nodup)
    (hne : ∀ e ∈ fs, e.2 ≠ []) :
    parseFieldsParameter ((serializeFieldsParameter fs).map
      fun e => (e.1, Qs.str e.2)) = fs := by
  rw [serializeFields_map fs (fun e he => by
    rw [filter_marks_eq e.2 (hgood e he).1]
    simpa using hne e he)]
  rw [List.map_map]
  unfold parseFieldsParameter
  rw [List.foldl_map]
  rw [List.foldl_ext _ (fun m (e : String × FieldSet) => jsAssign m e.1 e.2) _
    (fun acc e he => by
      show jsAssign acc e.1 (fieldTokens (String.mk (joinComma
        (((e.2.filter (fun kv => kv.2 = 1)).map (·.1)).map String.data))))
        = jsAssign acc e.1 e.2
      rw [filter_marks_eq e.2 (hgood e he).1,
        fieldTokens_rebuild e.2 (hne e he) (hgood e he).1 (hgood e he).2])]
  exact foldl_jsAssign_rebuild fs [] (by simpa [keysOf] using hnd)

theorem parseFields_foldl_good (entries : List (String × Qs))
    (acc : List (String × FieldSet)) (hacc : goodFields acc = true) :
    goodFields (entries.foldl
      (fun fields e =>
        match e.2 with
        | .str s => jsAssign fields e.1 (fieldTokens s)
        | _ => fields) acc) = true := by
  induction entries generalizing acc with
  | nil => exact hacc
  | cons e rest ih =>
    rw [List.foldl_cons]
    cases e.2 with
    | str s =>
      apply ih
      simp only [goodFields, Bool.and_eq_true, decide_eq_true_eq,
        List.all_eq_true] at hacc ⊢
      constructor
      · exact keysOf_jsAssign_nodup _ _ _ hacc.1
      · intro fe hfe
        rcases mem_jsAssign _ _ _ _ hfe with h' | h'
        · exact hacc.2 fe h'
        · rw [h']
          simp only [Bool.and_eq_true, decide_eq_true_eq, List.all_eq_true]
          exact ⟨(fieldTokens_good s).2, fun x hx => (fieldTokens_good s).1 x hx⟩
    | arr l => exact ih acc hacc
    | obj m => exact ih acc hacc

theorem parseFieldsParameter_good (entries : List (String × Qs)) :
    goodFields (parseFieldsParameter entries) = true := by
  unfold parseFieldsParameter
  exact parseFields_foldl_good entries [] (by simp [goodFields, keysOf])

/-! ## Include parameter: round trip -/

theorem parseInclude_good (s : String) :
    ∀ x ∈ parseIncludeParameter s, goodTok x.data = true := by
  intro x hx
  unfold parseIncludeParameter at hx
  obtain ⟨t, ht, rfl⟩ := List.mem_map.mp hx
  simpa using commaTokens_goodTok s.data t ht

theorem parseInclude_join (l : List String) (hne : l ≠ [])
    (hgood : ∀ x ∈ l, goodTok x.data = true) :
    parseIncludeParameter (String.mk (joinComma (l.map String.data))) = l := by
  unfold parseIncludeParameter
  rw [show (String.mk (joinComma (l.map String.data))).data
    = joinComma (l.map String.data) from rfl]
  rw [commaTokens_joinComma _
    (by simpa using hne)
    (by
      intro t ht
      obtain ⟨x, hx, rfl⟩ := List.mem_map.mp ht
      exact hgood x hx)]
  rw [List.map_map]
  have : (String.mk ∘ String.data) = (id : String → String) := by
    funext x
    rfl
  rw [this, List.map_id]

/-! ## Page parameter: invariants and round trip -/

theorem isSafe_bounds (v : Option Int) (h : isSafeIntegerJS v = true) :
    -maxSafeInteger ≤ v.getD 0 ∧ v.getD 0 ≤ maxSafeInteger := by
  cases v with
  | none => simp [isSafeIntegerJS] at h
  | some n =>
    simp only [isSafeIntegerJS, decide_eq_true_eq] at h
    simpa using h

theorem parsePageParameter_good (m : List (String × Qs)) :
    goodPage (parsePageParameter m) = true := by
  unfold parsePageParameter
  cases alookup m "cursor" with
  | some v =>
    cases v with
    | str c =>
      dsimp only
      split
      · rename_i hcond
        obtain ⟨hsafe, hpos⟩ := hcond
        have hb := isSafe_bounds _ hsafe
        simp only [goodPage, decide_eq_true_eq]
        omega
      · rfl
    | arr l =>
      dsimp only
      by_cases hol : ((alookup m "offset").isSome ∨ (alookup m "limit").isSome)
      · rw [if_pos hol]
        split
        · rename_i hcond
          obtain ⟨hsafe1, hsafe2, hnn, hpos⟩ := hcond
          have hb1 := isSafe_bounds _ hsafe1
          have hb2 := isSafe_bounds _ hsafe2
          simp only [goodPage, decide_eq_true_eq]
          omega
        · rfl
      · rw [if_neg hol]
        rfl
    | obj mm =>
      dsimp only
      by_cases hol : ((alookup m "offset").isSome ∨ (alookup m "limit").isSome)
      · rw [if_pos hol]
        split
        · rename_i hcond
          obtain ⟨hsafe1, hsafe2, hnn, hpos⟩ := hcond
          have hb1 := isSafe_bounds _ hsafe1
          have hb2 := isSafe_bounds _ hsafe2
          simp only [goodPage, decide_eq_true_eq]
          omega
        · rfl
      · rw [if_neg hol]
        rfl
  | none =>
    dsimp only
    by_cases hol : ((alookup m "offset").isSome ∨ (alookup m "limit").isSome)
    · rw [if_pos hol]
      split
      · rename_i hcond
        obtain ⟨hsafe1, hsafe2, hnn, hpos⟩ := hcond
        have hb1 := isSafe_bounds _ hsafe1
        have hb2 := isSafe_bounds _ hsafe2
        simp only [goodPage, decide_eq_true_eq]
        omega
      · rfl
    · rw [if_neg hol]
      rfl

theorem alookup_cons_ne (k0 k : String) (v : α) (rest : List (String × α))
    (h : k0 ≠ k) : alookup ((k0, v) :: rest) k = alookup rest k := by
  simp [alookup, h]

theorem alookup_cons_self (k : String) (v : α) (rest : List (String × α)) :
    alookup ((k, v) :: rest) k = some v := by
  simp [alookup]

theorem alookup_nil (k : String) : alookup ([] : List (String × α)) k = none := rfl

theorem parsePage_round (pg : Page) (hg : goodPage (some pg) = true)
    (hf : ∀ c, pg = Page.cursor c → c.field ≠ "") :
    parsePageParameter (qsNormSEntries (serializePageParameter pg)) = some pg := by
  cases pg with
  | offset o =>
    simp only [goodPage, decide_eq_true_eq] at hg
    obtain ⟨h1, h2, h3, h4⟩ := hg
    show parsePageParameter
      [("offset", Qs.str (String.mk (renderInt o.offset))),
       ("limit", Qs.str (String.mk (renderInt o.limit)))] = some (Page.offset o)
    unfold parsePageParameter
    rw [alookup_cons_ne "offset" "cursor" _ _ (by decide),
      alookup_cons_ne "limit" "cursor" _ _ (by decide), alookup_nil]
    rw [alookup_cons_self "offset"]
    rw [alookup_cons_ne "offset" "limit" _ _ (by decide),
      alookup_cons_self "limit"]
    dsimp only
    rw [if_pos (Or.inl (by simp))]
    rw [parseIntJS_renderInt o.offset (by omega),
      parseIntJS_renderInt o.limit (by omega)]
    rw [if_pos ⟨by simp only [isSafeIntegerJS, decide_eq_true_eq]; omega,
      by simp only [isSafeIntegerJS, decide_eq_true_eq]; omega,
      by simp; omega, by simp; omega⟩]
    rfl
  | cursor c =>
    simp only [goodPage, decide_eq_true_eq] at hg
    obtain ⟨h1, h2⟩ := hg
    have hfne : c.field ≠ "" := hf c rfl
    by_cases hid : c.field = "id"
    · show parsePageParameter (qsNormSEntries
        ([("cursor", SVal.str c.cursor), ("limit", SVal.num c.limit)] ++
          (if c.field ≠ "" ∧ c.field ≠ "id" then [("field", SVal.str c.field)]
            else []))) = some (Page.cursor c)
      rw [if_neg (by simp [hid])]
      show parsePageParameter
        [("cursor", Qs.str c.cursor),
         ("limit", Qs.str (String.mk (renderInt c.limit)))] = some (Page.cursor c)
      unfold parsePageParameter
      rw [alookup_cons_self "cursor"]
      rw [alookup_cons_ne "cursor" "field" _ _ (by decide),
        alookup_cons_ne "limit" "field" _ _ (by decide), alookup_nil]
      rw [alookup_cons_ne "cursor" "limit" _ _ (by decide),
        alookup_cons_self "limit"]
      dsimp only
      rw [parseIntJS_renderInt c.limit (by omega)]
      rw [if_pos ⟨by simp only [isSafeIntegerJS, decide_eq_true_eq]; omega,
        by simp; omega⟩]
      simp only [Option.getD_some]
      rw [show (Page.cursor ⟨c.cursor, "id", c.limit⟩) = Page.cursor c by
        rw [← hid]]
    · show parsePageParameter (qsNormSEntries
        ([("cursor", SVal.str c.cursor), ("limit", SVal.num c.limit)] ++
          (if c.field ≠ "" ∧ c.field ≠ "id" then [("field", SVal.str c.field)]
            else []))) = some (Page.cursor c)
      rw [if_pos ⟨hfne, hid⟩]
      show parsePageParameter
        [("cursor", Qs.str c.cursor),
         ("limit", Qs.str (String.mk (renderInt c.limit))),
         ("field", Qs.str c.field)] = some (Page.cursor c)
      unfold parsePageParameter
      rw [alookup_cons_self "cursor"]
      rw [alookup_cons_ne "cursor" "field" _ _ (by decide),
        alookup_cons_ne "limit" "field" _ _ (by decide),
        alookup_cons_self "field"]
      rw [alookup_cons_ne "cursor" "limit" _ _ (by decide),
        alookup_cons_self "limit"]
      dsimp only
      rw [parseIntJS_renderInt c.limit (by omega)]
      rw [if_pos ⟨by simp only [isSafeIntegerJS, decide_eq_true_eq]; omega,
        by simp; omega⟩]
      rfl

/-! ## The parser output satisfies the `goodQuery` invariants -/

theorem wfEntries_alookup (p : List (String × Qs)) (h : Qs.wfEntries p = true)
    (k : String) (v : Qs) (hv : alookup p k = some v) : v.wf = true := by
  induction p with
  | nil => simp [alookup] at hv
  | cons e rest ih =>
    rw [Qs.wfEntries, Bool.and_eq_true] at h
    obtain ⟨k0, v0⟩ := e
    rw [alookup] at hv
    by_cases h0 : k0 = k
    · rw [if_pos h0] at hv
      cases hv
      exact h.1
    · rw [if_neg h0] at hv
      exact ih h.2 hv

theorem parser_sort_good (p : ParsedQs) :
    (∀ e ∈ (parser p).sort, goodSortEntry e = true) ∧
    (keysOf (parser p).sort).Nodup := by
  unfold parser
  dsimp only
  cases alookup p "sort" with
  | none => simp [keysOf]
  | some v =>
    cases v with
    | str s => exact parseSortParameter_good s
    | arr l => simp [keysOf]
    | obj m => simp [keysOf]

theorem parser_page_good (p : ParsedQs) : goodPage (parser p).page = true := by
  unfold parser
  dsimp only
  cases alookup p "page" with
  | none => rfl
  | some v =>
    dsimp only
    by_cases hv : v.isObjectLike = true
    · rw [if_pos hv]
      exact parsePageParameter_good (qsEntries v)
    · rw [if_neg hv]
      rfl

theorem parser_filter_good (p : ParsedQs) (hwfe : Qs.wfEntries p = true) :
    ∀ f, (parser p).filter = some f → f.isObjectLike = true ∧ f.wf = true := by
  unfold parser
  dsimp only
  intro f
  cases hx : alookup p "filter" with
  | none => intro h; cases h
  | some v =>
    dsimp only
    by_cases hv : v.isObjectLike = true
    · rw [if_pos hv]
      intro h
      rw [show parseFilterParameter v = v from rfl] at h
      obtain rfl := Option.some_inj.mp h
      exact ⟨hv, wfEntries_alookup p hwfe "filter" _ hx⟩
    · rw [if_neg hv]
      intro h
      cases h

theorem parser_fields_good (p : ParsedQs) :
    goodFields (parser p).fields = true := by
  unfold parser
  dsimp only
  cases alookup p "fields" with
  | none => simp [goodFields, keysOf]
  | some v =>
    dsimp only
    by_cases hv : v.isObjectLike = true
    · rw [if_pos hv]
      exact parseFieldsParameter_good (qsEntries v)
    · rw [if_neg hv]
      simp [goodFields, keysOf]

theorem parser_incl_good (p : ParsedQs) :
    ∀ l, (parser p).incl = some l → ∀ x ∈ l, goodTok x.data = true := by
  unfold parser
  dsimp only
  intro l
  cases alookup p "include" with
  | none => intro h; cases h
  | some v =>
    cases v with
    | str s =>
      intro h
      cases h
      exact parseInclude_good s
    | arr l2 => intro h; cases h
    | obj m => intro h; cases h

theorem wfEntries_mem (p : List (String × Qs)) (h : Qs.wfEntries p = true)
    (e : String × Qs) (he : e ∈ p) : e.2.wf = true := by
  induction p with
  | nil => cases he
  | cons e0 rest ih =>
    rw [Qs.wfEntries, Bool.and_eq_true] at h
    rcases List.mem_cons.mp he with rfl | hm'
    · exact h.1
    · exact ih h.2 hm'

theorem parser_custom_good (p : ParsedQs) (hnd : (keysOf p).Nodup)
    (hwfe : Qs.wfEntries p = true) :
    (∀ e ∈ (parser p).custom,
      e.1 ∉ reservedKeys ∧ e.2.wf = true) ∧
    (keysOf (parser p).custom).Nodup := by
  constructor
  · intro e he
    have hmem : e ∈ p := List.mem_of_mem_filter he
    have hpred := List.of_mem_filter he
    exact ⟨by simpa using hpred, wfEntries_mem p hwfe e hmem⟩
  · have hk : keysOf ((parser p).custom) = keysOf (p.filter
        (fun e => ¬ reservedKeys.contains e.1)) := rfl
    rw [hk]
    exact List.Nodup.sublist
      (List.Sublist.map _ (List.filter_sublist p)) hnd

theorem parserGood (p : ParsedQs) (hwf : wfParsed p = true) :
    goodQuery (parser p) = true := by
  unfold wfParsed at hwf
  rw [Bool.and_eq_true, decide_eq_true_eq] at hwf
  obtain ⟨hnd, hwfe⟩ := hwf
  unfold goodQuery
  simp only [Bool.and_eq_true, decide_eq_true_eq, List.all_eq_true]
  refine ⟨⟨⟨⟨⟨⟨⟨?_, ?_⟩, ?_⟩, ?_⟩, ?_⟩, ?_⟩, ?_⟩, ?_⟩
  · exact (parser_sort_good p).1
  · exact (parser_sort_good p).2
  · exact parser_page_good p
  · cases hx : (parser p).filter with
    | none => rfl
    | some f =>
      have := parser_filter_good p hwfe f hx
      simp [this.1, this.2]
  · exact parser_fields_good p
  · cases hx : (parser p).incl with
    | none => rfl
    | some l =>
      simp only [List.all_eq_true]
      exact fun x hx' => parser_incl_good p l hx x hx'
  · intro e he
    have := (parser_custom_good p hnd hwfe).1 e he
    exact ⟨by simpa using this.1, this.2⟩
  · exact (parser_custom_good p hnd hwfe).2

/-! ## Looking up the normalized serializer output -/

theorem qsNormTop_serializer (q : JsonApiQuery) :
    qsNormTop (serializer q)
      = qsNormSEntries (serSortPart q) ++ qsNormSEntries (serPagePart q) ++
        qsNormSEntries (serFilterPart q) ++ qsNormSEntries (serFieldsPart q) ++
        qsNormSEntries (serInclPart q) ++ qsNormSEntries (serCustomPart q) := by
  unfold qsNormTop serializer
  rw [qsNormSEntries_append, qsNormSEntries_append, qsNormSEntries_append,
    qsNormSEntries_append, qsNormSEntries_append]

theorem serSortPart_keys (q : JsonApiQuery) :
    ∀ e ∈ serSortPart q, e.1 = "sort" := by
  unfold serSortPart
  split
  · intro e he
    simp at he
    rw [he]
  · intro e he
    simp at he

theorem serPagePart_keys (q : JsonApiQuery) :
    ∀ e ∈ serPagePart q, e.1 = "page" := by
  unfold serPagePart
  split
  · intro e he
    simp at he
    rw [he]
  · intro e he
    simp at he

theorem serFilterPart_keys (q : JsonApiQuery) :
    ∀ e ∈ serFilterPart q, e.1 = "filter" := by
  unfold serFilterPart
  split
  · rename_i f _
    split
    · intro e he
      simp at he
      rw [he]
    · intro e he
      simp at he
  · intro e he
    simp at he

theorem serFieldsPart_keys (q : JsonApiQuery) :
    ∀ e ∈ serFieldsPart q, e.1 = "fields" := by
  unfold serFieldsPart
  split
  · intro e he
    simp at he
    rw [he]
  · intro e he
    simp at he

theorem serInclPart_keys (q : JsonApiQuery) :
    ∀ e ∈ serInclPart q, e.1 = "include" := by
  unfold serInclPart
  split
  · rename_i l _
    split
    · intro e he
      simp at he
      rw [he]
    · intro e he
      simp at he
  · intro e he
    simp at he

theorem serCustomPart_not_reserved (q : JsonApiQuery) (e : String × SVal)
    (he : e ∈ serCustomPart q) (k : String) (hk : k ∈ reservedKeys) :
    e.1 ≠ k := by
  unfold serCustomPart at he
  obtain ⟨e0, he0, rfl⟩ := List.mem_map.mp he
  have hpred := List.of_mem_filter he0
  intro hek
  simp at hpred
  exact hpred (by rw [hek]; exact hk)

theorem qsNormSVal_robj_ne (m : List (String × SVal))
    (h : qsNormSEntries m ≠ []) :
    qsNormSVal (SVal.robj m) = some (Qs.obj (qsNormSEntries m)) := by
  rw [qsNormSVal]
  obtain ⟨a, rest, hm⟩ := List.exists_cons_of_ne_nil h
  rw [hm]

theorem qsNormSEntries_singleton (k : String) (v : SVal) (v' : Qs)
    (h : qsNormSVal v = some v') : qsNormSEntries [(k, v)] = [(k, v')] := by
  rw [qsNormSEntries, h]
  rfl

/-- The component facts `reparse_eq` needs, extracted from
`lookup_normser_*` below via the chain of `Option.or`. -/
theorem lookup_normser (q : JsonApiQuery) (k : String) (hk : k ∈ reservedKeys) :
    alookup (qsNormTop (serializer q)) k
      = ((((alookup (qsNormSEntries (serSortPart q)) k).or
          (alookup (qsNormSEntries (serPagePart q)) k)).or
          (alookup (qsNormSEntries (serFilterPart q)) k)).or
          (alookup (qsNormSEntries (serFieldsPart q)) k)).or
          (alookup (qsNormSEntries (serInclPart q)) k) := by
  rw [qsNormTop_serializer]
  rw [alookup_append, alookup_append, alookup_append, alookup_append,
    alookup_append]
  rw [alookup_qsNormS_none (serCustomPart q) k
    (fun e he => serCustomPart_not_reserved q e he k hk)]
  rw [Option.or_none]

theorem lookup_normser_sort (q : JsonApiQuery) :
    alookup (qsNormTop (serializer q)) "sort"
      = if q.sort = [] then none
        else some (Qs.str (serializeSortParameter q.sort)) := by
  rw [lookup_normser q "sort" (by decide)]
  rw [alookup_qsNormS_none (serPagePart q) "sort"
      (fun e he => by rw [serPagePart_keys q e he]; decide),
    alookup_qsNormS_none (serFilterPart q) "sort"
      (fun e he => by rw [serFilterPart_keys q e he]; decide),
    alookup_qsNormS_none (serFieldsPart q) "sort"
      (fun e he => by rw [serFieldsPart_keys q e he]; decide),
    alookup_qsNormS_none (serInclPart q) "sort"
      (fun e he => by rw [serInclPart_keys q e he]; decide)]
  simp only [Option.or_none, Option.none_or]
  unfold serSortPart
  by_cases hs : q.sort = []
  · rw [if_neg (by simp [hs]), if_pos hs]
    rfl
  · rw [if_pos hs, if_neg hs,
      qsNormSEntries_singleton "sort" (SVal.str (serializeSortParameter q.sort))
        (Qs.str (serializeSortParameter q.sort)) rfl,
      alookup_cons_self]

theorem lookup_normser_page (q : JsonApiQuery) :
    alookup (qsNormTop (serializer q)) "page"
      = q.page.map (fun pg => Qs.obj (qsNormSEntries (serializePageParameter pg))) := by
  rw [lookup_normser q "page" (by decide)]
  rw [alookup_qsNormS_none (serSortPart q) "page"
      (fun e he => by rw [serSortPart_keys q e he]; decide),
    alookup_qsNormS_none (serFilterPart q) "page"
      (fun e he => by rw [serFilterPart_keys q e he]; decide),
    alookup_qsNormS_none (serFieldsPart q) "page"
      (fun e he => by rw [serFieldsPart_keys q e he]; decide),
    alookup_qsNormS_none (serInclPart q) "page"
      (fun e he => by rw [serInclPart_keys q e he]; decide)]
  simp only [Option.or_none, Option.none_or]
  unfold serPagePart
  cases q.page with
  | none => rfl
  | some pg =>
    dsimp only
    have hne : qsNormSEntries (serializePageParameter pg) ≠ [] := by
      cases pg with
      | offset o => simp [serializePageParameter, qsNormSEntries, qsNormSVal]
      | cursor c =>
        show qsNormSEntries (("cursor", SVal.str c.cursor) :: _) ≠ []
        rw [qsNormSEntries]
        simp [qsNormSVal]
    rw [qsNormSEntries_singleton "page" _ _ (qsNormSVal_robj_ne _ hne)]
    rw [alookup_cons_self]
    rfl

theorem lookup_normser_filter (q : JsonApiQuery)
    (h : ∀ f, q.filter = some f → f.isObjectLike = true ∧ f.wf = true) :
    alookup (qsNormTop (serializer q)) "filter" = q.filter := by
  rw [lookup_normser q "filter" (by decide)]
  rw [alookup_qsNormS_none (serSortPart q) "filter"
      (fun e he => by rw [serSortPart_keys q e he]; decide),
    alookup_qsNormS_none (serPagePart q) "filter"
      (fun e he => by rw [serPagePart_keys q e he]; decide),
    alookup_qsNormS_none (serFieldsPart q) "filter"
      (fun e he => by rw [serFieldsPart_keys q e he]; decide),
    alookup_qsNormS_none (serInclPart q) "filter"
      (fun e he => by rw [serInclPart_keys q e he]; decide)]
  simp only [Option.or_none, Option.none_or]
  unfold serFilterPart
  cases hf : q.filter with
  | none => rfl
  | some f =>
    dsimp only
    obtain ⟨hobj, hwf⟩ := h f hf
    have hkeys : f.keysNonempty = true := by
      cases f with
      | str s => simp [Qs.isObjectLike] at hobj
      | arr l =>
        simp only [Qs.wf, Bool.and_eq_true] at hwf
        simpa [Qs.keysNonempty] using hwf.1
      | obj m =>
        simp only [Qs.wf, Bool.and_eq_true] at hwf
        simpa [Qs.keysNonempty] using hwf.1.1
    rw [if_pos hkeys]
    rw [qsNormSEntries_singleton "filter" (SVal.pass f) f
      (by rw [show qsNormSVal (SVal.pass f) = qsNormVal f from rfl]
          exact qsNormVal_wf f hwf)]
    rw [alookup_cons_self]

theorem lookup_normser_fields (q : JsonApiQuery) :
    alookup (qsNormTop (serializer q)) "fields"
      = if q.fields = [] then none
        else (qsNormSVal (SVal.robj ((serializeFieldsParameter q.fields).map
          fun e => (e.1, SVal.str e.2)))) := by
  rw [lookup_normser q "fields" (by decide)]
  rw [alookup_qsNormS_none (serSortPart q) "fields"
      (fun e he => by rw [serSortPart_keys q e he]; decide),
    alookup_qsNormS_none (serPagePart q) "fields"
      (fun e he => by rw [serPagePart_keys q e he]; decide),
    alookup_qsNormS_none (serFilterPart q) "fields"
      (fun e he => by rw [serFilterPart_keys q e he]; decide),
    alookup_qsNormS_none (serInclPart q) "fields"
      (fun e he => by rw [serInclPart_keys q e he]; decide)]
  simp only [Option.or_none, Option.none_or]
  unfold serFieldsPart
  by_cases hs : q.fields = []
  · rw [if_neg (by simp [hs]), if_pos hs]
    rfl
  · rw [if_pos hs, if_neg hs]
    cases hv : qsNormSVal (SVal.robj ((serializeFieldsParameter q.fields).map
        fun e => (e.1, SVal.str e.2))) with
    | none =>
      rw [show qsNormSEntries [("fields", SVal.robj
        ((serializeFieldsParameter q.fields).map fun e => (e.1, SVal.str e.2)))]
        = [] from by rw [qsNormSEntries, hv]; rfl]
      rfl
    | some v' =>
      rw [qsNormSEntries_singleton "fields" _ v' hv]
      rw [alookup_cons_self]

theorem lookup_normser_incl (q : JsonApiQuery) (h : q.incl ≠ some []) :
    alookup (qsNormTop (serializer q)) "include"
      = q.incl.map (fun l => Qs.str (String.mk (joinComma (l.map String.data)))) := by
  rw [lookup_normser q "include" (by decide)]
  rw [alookup_qsNormS_none (serSortPart q) "include"
      (fun e he => by rw [serSortPart_keys q e he]; decide),
    alookup_qsNormS_none (serPagePart q) "include"
      (fun e he => by rw [serPagePart_keys q e he]; decide),
    alookup_qsNormS_none (serFilterPart q) "include"
      (fun e he => by rw [serFilterPart_keys q e he]; decide),
    alookup_qsNormS_none (serFieldsPart q) "include"
      (fun e he => by rw [serFieldsPart_keys q e he]; decide)]
  simp only [Option.or_none, Option.none_or]
  unfold serInclPart
  cases hi : q.incl with
  | none => rfl
  | some l =>
    dsimp only
    have hl : l ≠ [] := fun hnil => h (by rw [hi, hnil])
    rw [if_pos hl,
      qsNormSEntries_singleton "include"
        (SVal.str (String.mk (joinComma (l.map String.data))))
        (Qs.str (String.mk (joinComma (l.map String.data)))) rfl,
      alookup_cons_self]
    rfl

theorem JsonApiQuery.ext_of (a b : JsonApiQuery)
    (h1 : a.sort = b.sort) (h2 : a.page = b.page) (h3 : a.filter = b.filter)
    (h4 : a.fields = b.fields) (h5 : a.incl = b.incl)
    (h6 : a.custom = b.custom) : a = b := by
  cases a
  cases b
  simp_all

theorem wfEntries_of_forall (m : ParsedQs) (h : ∀ e ∈ m, Qs.wf e.2 = true) :
    Qs.wfEntries m = true := by
  induction m with
  | nil => rfl
  | cons e rest ih =>
    rw [Qs.wfEntries, Bool.and_eq_true]
    exact ⟨h e (by simp), ih (fun x hx => h x (by simp [hx]))⟩

theorem filter_norm_reserved_nil (m : SObj) (k : String)
    (hk : k ∈ reservedKeys) (hm : ∀ e ∈ m, e.1 = k) :
    (qsNormSEntries m).filter (fun e => ¬ reservedKeys.contains e.1) = [] := by
  rw [List.filter_eq_nil_iff]
  intro e he
  have hkey : e.1 ∈ keysOf m := mem_qsNormSEntries_key m e he
  obtain ⟨e0, he0, hk0⟩ := List.mem_map.mp hkey
  have : e.1 = k := hk0 ▸ hm e0 he0
  simp [this, hk]

theorem normser_custom_filter (q : JsonApiQuery)
    (hkeys : ∀ e ∈ q.custom, ¬ (e.1 ∈ reservedKeys))
    (hwf : ∀ e ∈ q.custom, Qs.wf e.2 = true) :
    (qsNormTop (serializer q)).filter (fun e => ¬ reservedKeys.contains e.1)
      = q.custom := by
  rw [qsNormTop_serializer]
  rw [List.filter_append, List.filter_append, List.filter_append,
    List.filter_append, List.filter_append]
  rw [filter_norm_reserved_nil (serSortPart q) "sort" (by decide)
      (serSortPart_keys q),
    filter_norm_reserved_nil (serPagePart q) "page" (by decide)
      (serPagePart_keys q),
    filter_norm_reserved_nil (serFilterPart q) "filter" (by decide)
      (serFilterPart_keys q),
    filter_norm_reserved_nil (serFieldsPart q) "fields" (by decide)
      (serFieldsPart_keys q),
    filter_norm_reserved_nil (serInclPart q) "include" (by decide)
      (serInclPart_keys q)]
  have hcf : q.custom.filter (fun e => ¬ reservedKeys.contains e.1) = q.custom :=
    List.filter_eq_self.mpr (fun e he => by simpa using hkeys e he)
  rw [show serCustomPart q = q.custom.map (fun e => (e.1, SVal.pass e.2)) from by
    unfold serCustomPart
    rw [hcf]]
  rw [qsNormSEntries_map_pass q.custom (wfEntries_of_forall q.custom hwf)]
  rw [hcf]
  rfl

/-- For every query `q` satisfying the `parser` output invariants and
the round-trip side conditions, `parse(serialize(q))` gives back `q`
member by member. -/
theorem reparse_eq (q : JsonApiQuery) (hg : goodQuery q = true)
    (hrt : rtCond q = true) : reparse q = q := by
  unfold goodQuery at hg
  simp only [Bool.and_eq_true] at hg
  obtain ⟨⟨⟨⟨⟨⟨⟨hsg, hsnd⟩, hpg⟩, hfg⟩, hfsg⟩, hig⟩, hcg⟩, hcnd⟩ := hg
  unfold rtCond at hrt
  simp only [Bool.and_eq_true] at hrt
  obtain ⟨⟨hrtf, hrti⟩, hrtp⟩ := hrt
  unfold reparse
  have hsort := lookup_normser_sort q
  have hpage := lookup_normser_page q
  have hfilter := lookup_normser_filter q (by
    intro f hf
    rw [hf] at hfg
    simpa [Bool.and_eq_true] using hfg)
  have hfields := lookup_normser_fields q
  have hincl := lookup_normser_incl q (by
    intro hi
    rw [hi] at hrti
    simp at hrti)
  have hcustom := normser_custom_filter q
    (fun e he => by
      have := List.all_eq_true.mp hcg e he
      simp only [Bool.and_eq_true, Bool.not_eq_true'] at this
      simpa using this.1)
    (fun e he => by
      have := List.all_eq_true.mp hcg e he
      simp only [Bool.and_eq_true] at this
      exact this.2)
  apply JsonApiQuery.ext_of
  · -- sort
    unfold parser
    dsimp only
    rw [hsort]
    by_cases hs : q.sort = []
    · rw [if_pos hs, hs]
    · rw [if_neg hs]
      exact parseSort_serializeSort q.sort hs
        (List.all_eq_true.mp hsg) (by simpa using hsnd)
  · -- page
    unfold parser
    dsimp only
    rw [hpage]
    cases hp : q.page with
    | none => rfl
    | some pg =>
      show (if (Qs.obj (qsNormSEntries (serializePageParameter pg))).isObjectLike
        then parsePageParameter
          (qsEntries (Qs.obj (qsNormSEntries (serializePageParameter pg))))
        else none) = some pg
      rw [if_pos (show (Qs.obj
        (qsNormSEntries (serializePageParameter pg))).isObjectLike = true from rfl)]
      exact parsePage_round pg (hp ▸ hpg) (by
        intro c hc
        rw [hp, hc] at hrtp
        simpa using hrtp)
  · -- filter
    unfold parser
    dsimp only
    rw [hfilter]
    cases hf : q.filter with
    | none => rfl
    | some f =>
      dsimp only
      have hfg' : f.isObjectLike = true ∧ f.wf = true := by
        rw [hf] at hfg
        simpa using hfg
      rw [if_pos hfg'.1]
      rfl
  · -- fields
    unfold parser
    dsimp only
    rw [hfields]
    by_cases hs : q.fields = []
    · rw [if_pos hs, hs]
    · rw [if_neg hs]
      have hne : ∀ e ∈ q.fields,
          ((e.2.filter (fun kv => kv.2 = 1)).map (·.1)) ≠ [] := by
        intro e he
        have := List.all_eq_true.mp hrtf e he
        simpa using this
      have hser := serializeFields_map q.fields hne
      have hobj : qsNormSVal (SVal.robj ((serializeFieldsParameter q.fields).map
          fun e => (e.1, SVal.str e.2)))
          = some (Qs.obj ((serializeFieldsParameter q.fields).map
            fun e => (e.1, Qs.str e.2))) := by
        rw [qsNormSVal_robj_ne _ (by
          rw [qsNormSEntries_map_str, hser]
          simpa using hs)]
        rw [qsNormSEntries_map_str]
      rw [hobj]
      show (if (Qs.obj ((serializeFieldsParameter q.fields).map
          fun e => (e.1, Qs.str e.2))).isObjectLike
        then parseFieldsParameter (qsEntries (Qs.obj
          ((serializeFieldsParameter q.fields).map fun e => (e.1, Qs.str e.2))))
        else []) = q.fields
      rw [if_pos (show (Qs.obj ((serializeFieldsParameter q.fields).map
        fun e => (e.1, Qs.str e.2))).isObjectLike = true from rfl)]
      unfold goodFields at hfsg
      simp only [Bool.and_eq_true, decide_eq_true_eq, List.all_eq_true] at hfsg
      apply parseFields_round q.fields hfsg.1
      · intro e he
        obtain ⟨h1, h2⟩ := hfsg.2 e he
        exact ⟨h2, h1⟩
      · intro e he hnil
        exact hne e he (by rw [hnil]; rfl)
  · -- include
    unfold parser
    dsimp only
    rw [hincl]
    cases hi : q.incl with
    | none => rfl
    | some l =>
      show some (parseIncludeParameter (String.mk (joinComma (l.map String.data))))
        = some l
      have hlne : l ≠ [] := by
        rw [hi] at hrti
        simpa using hrti
      rw [parseInclude_join l hlne (by
        rw [hi] at hig
        exact List.all_eq_true.mp hig)]
  · -- custom
    unfold parser
    dsimp only
    exact hcustom

/-- C1 (counterexample).  The round-trip law fails as stated: the
query produced by parsing `fields[articles]=` binds `articles` to the
empty fieldset, the serializer omits a type with no marked fields, and
the reparse has no `articles` binding at all, so `parse(serialize(q))`
differs from `q` for this parser-produced `q`. -/
theorem c1_roundtrip_cex :
    (reparse (parser [("fields", Qs.obj [("articles", Qs.str "")])])).fields
      ≠ (parser [("fields", Qs.obj [("articles", Qs.str "")])]).fields := by
  decide

/-- C1 (amended).  For every well-formed `qs.parse` output `p`, the
query `q = parser p` round-trips — `parse(serialize(q))` is
structurally equal to `q` — provided `q` avoids the degenerate parses
on which the serializer drops information: every resource type bound
in `fields` has at least one requested field, the `include` list, when
present, is nonempty, and a cursor page carries a nonempty sort
field. -/
theorem c1_roundtrip_amended (p : ParsedQs) (h1 : wfParsed p = true)
    (h2 : rtCond (parser p) = true) : reparse (parser p) = parser p :=
  reparse_eq (parser p) (parserGood p h1) h2

/-- C1 (witness for the amended theorem): the round-trip holds on a
full-featured request with sort, offset pagination, a filter block,
sparse fieldsets, includes and an unknown key. -/
theorem c1_roundtrip_amended_witness :
    wfParsed [("sort", Qs.str "-created,title"),
      ("page", Qs.obj [("offset", Qs.str "20"), ("limit", Qs.str "10")]),
      ("filter", Qs.obj [("status", Qs.str "published")]),
      ("fields", Qs.obj [("articles", Qs.str "title,body")]),
      ("include", Qs.str "comments.author"),
      ("foo", Qs.str "bar")] = true ∧
    rtCond (parser [("sort", Qs.str "-created,title"),
      ("page", Qs.obj [("offset", Qs.str "20"), ("limit", Qs.str "10")]),
      ("filter", Qs.obj [("status", Qs.str "published")]),
      ("fields", Qs.obj [("articles", Qs.str "title,body")]),
      ("include", Qs.str "comments.author"),
      ("foo", Qs.str "bar")]) = true ∧
    reparse (parser [("sort", Qs.str "-created,title"),
      ("page", Qs.obj [("offset", Qs.str "20"), ("limit", Qs.str "10")]),
      ("filter", Qs.obj [("status", Qs.str "published")]),
      ("fields", Qs.obj [("articles", Qs.str "title,body")]),
      ("include", Qs.str "comments.author"),
      ("foo", Qs.str "bar")])
      = parser [("sort", Qs.str "-created,title"),
      ("page", Qs.obj [("offset", Qs.str "20"), ("limit", Qs.str "10")]),
      ("filter", Qs.obj [("status", Qs.str "published")]),
      ("fields", Qs.obj [("articles", Qs.str "title,body")]),
      ("include", Qs.str "comments.author"),
      ("foo", Qs.str "bar")] :=
  ⟨by decide, by decide,
    c1_roundtrip_amended [("sort", Qs.str "-created,title"),
      ("page", Qs.obj [("offset", Qs.str "20"), ("limit", Qs.str "10")]),
      ("filter", Qs.obj [("status", Qs.str "published")]),
      ("fields", Qs.obj [("articles", Qs.str "title,body")]),
      ("include", Qs.str "comments.author"),
      ("foo", Qs.str "bar")] (by decide) (by decide)⟩

end NestJsRest
